import Mathlib

/-!
Verification development for `remove_stuck_job.py`, a maintenance tool that
purges stuck jobs from a Redis-backed job queue.

The store is modelled as an association list from key names to tagged values
(ordered sequence / set / score-ordered sequence / other), key names and job
ids as lists of characters.  Every store-touching function of the source is
embedded as a pure function that also returns the list of store calls it
issues (reads and mutations), so that trace properties (mutation freedom,
ordering of reference removal versus data deletion) are statable.

Redis specifics reflected in the model:
* glob matching supports `*` (any sequence) and `?` (any single character),
  the only metacharacters the tool's patterns can contain;
* `SCAN` is a cursor loop with batch size 5000; cursor `0` signals the end.
  A round is modelled as a slice of the key list; mutations between rounds
  are not modelled (the tool's keyspaces fit in one round);
* removing the last member of a collection removes the key itself;
* `DEL` of an absent key is a no-op (deletes are idempotent).
-/

namespace RSJ

open scoped List

/-- Key names, member values and patterns are strings, i.e. lists of chars. -/
abbrev Str := List Char

/-- A stored Redis value: BullMQ queue containers are lists, sets or sorted
sets of job ids; anything else (job data hashes, strings, ...) is `other`.
A `zset` is kept in score order, as `ZRANGE 0 -1` would return it. -/
inductive RVal where
  | list (xs : List Str)
  | set (xs : List Str)
  | zset (xs : List Str)
  | other
deriving DecidableEq

/-- The keyspace: an association list of key names to values. -/
abbrev Store := List (Str × RVal)

/-- The key names present in a store. -/
def keys (s : Store) : List Str := s.map (fun e => e.1)

/-- A well-formed Redis store names every key at most once. -/
def WF (s : Store) : Prop := (keys s).Nodup

instance (s : Store) : Decidable (WF s) := List.nodupDecidable (keys s)

/-- Reading a key: the first binding wins (unique under `WF`). -/
def lookup : Store → Str → Option RVal
  | [], _ => none
  | e :: s, k => if e.1 = k then some e.2 else lookup s k

/-- One store call, as issued by the tool.  `scan` is one `SCAN` round,
`typ` is `TYPE`, the rest are the homonymous Redis commands. -/
inductive Op where
  | scan (pat : Str)
  | typ (k : Str)
  | lrange (k : Str)
  | smembers (k : Str)
  | zrange (k : Str)
  | lrem (k v : Str)
  | srem (k v : Str)
  | zrem (k v : Str)
  | del (k : Str)
deriving DecidableEq

/-- Whether a store call mutates the store. -/
def Op.isMut : Op → Bool
  | .lrem _ _ => true
  | .srem _ _ => true
  | .zrem _ _ => true
  | .del _ => true
  | _ => false

/-- The key a mutating call targets (`none` for read-only calls). -/
def Op.mutKey : Op → Option Str
  | .lrem k _ => some k
  | .srem k _ => some k
  | .zrem k _ => some k
  | .del k => some k
  | _ => none

/-- A reported line `[<container>] <N> jobs`. -/
abbrev Report := Str × Nat

/-! ### Glob matching

Redis `MATCH` patterns.  Defined with explicit fuel so that the kernel can
evaluate it on concrete inputs; `p.length + s.length` strictly decreases at
every recursive call, so fuel `p.length + s.length + 1` is always enough. -/

/-- Fuelled glob matcher: `*` matches any sequence, `?` any one character,
anything else itself. -/
def globMatchF : Nat → Str → Str → Bool
  | 0, _, _ => false
  | _ + 1, [], s => s.isEmpty
  | f + 1, c :: ps, s =>
    if c = '*' then
      match s with
      | [] => globMatchF f ps []
      | _ :: cs => globMatchF f ps s || globMatchF f (c :: ps) cs
    else
      match s with
      | [] => false
      | c' :: cs => (c = '?' || c = c') && globMatchF f ps cs

/-- Does pattern `p` match the whole string `s`? -/
def globMatch (p s : Str) : Bool := globMatchF (p.length + s.length + 1) p s

theorem gmF_nil (f : Nat) (s : Str) : globMatchF (f + 1) [] s = s.isEmpty := rfl

theorem gmF_star_nil (f : Nat) (ps : Str) :
    globMatchF (f + 1) ('*' :: ps) [] = globMatchF f ps [] := rfl

theorem gmF_star_cons (f : Nat) (ps : Str) (c : Char) (cs : Str) :
    globMatchF (f + 1) ('*' :: ps) (c :: cs) =
      (globMatchF f ps (c :: cs) || globMatchF f ('*' :: ps) cs) := rfl

theorem gmF_lit_nil (f : Nat) (c : Char) (ps : Str) (hc : c ≠ '*') :
    globMatchF (f + 1) (c :: ps) [] = false := by
  simp only [globMatchF]
  rw [if_neg hc]

theorem gmF_lit_cons (f : Nat) (c : Char) (ps : Str) (c' : Char) (cs : Str) (hc : c ≠ '*') :
    globMatchF (f + 1) (c :: ps) (c' :: cs) =
      ((c = '?' || c = c') && globMatchF f ps cs) := by
  simp only [globMatchF]
  rw [if_neg hc]

theorem globMatchF_irrel : ∀ f₁ : Nat, ∀ p s : Str, ∀ f₂ : Nat,
    p.length + s.length < f₁ → p.length + s.length < f₂ →
    globMatchF f₁ p s = globMatchF f₂ p s := by
  intro f₁
  induction f₁ with
  | zero => intro p s f₂ h₁ h₂; omega
  | succ g ih =>
    intro p s f₂ h₁ h₂
    obtain ⟨g₂, rfl⟩ : ∃ g₂, f₂ = g₂ + 1 := ⟨f₂ - 1, by omega⟩
    cases p with
    | nil => rfl
    | cons c ps =>
      simp only [List.length_cons] at h₁ h₂
      by_cases hc : c = '*'
      · subst hc
        cases s with
        | nil =>
          rw [gmF_star_nil, gmF_star_nil]
          exact ih ps [] g₂ (by simp only [List.length_nil]; omega)
            (by simp only [List.length_nil]; omega)
        | cons c' cs =>
          simp only [List.length_cons] at h₁ h₂
          rw [gmF_star_cons, gmF_star_cons,
            ih ps (c' :: cs) g₂ (by simp only [List.length_cons]; omega)
              (by simp only [List.length_cons]; omega),
            ih ('*' :: ps) cs g₂ (by simp only [List.length_cons]; omega)
              (by simp only [List.length_cons]; omega)]
      · cases s with
        | nil => rw [gmF_lit_nil _ _ _ hc, gmF_lit_nil _ _ _ hc]
        | cons c' cs =>
          simp only [List.length_cons] at h₁ h₂
          rw [gmF_lit_cons _ _ _ _ _ hc, gmF_lit_cons _ _ _ _ _ hc,
            ih ps cs g₂ (by omega) (by omega)]

theorem globMatch_eq_F (f : Nat) (p s : Str) (h : p.length + s.length < f) :
    globMatch p s = globMatchF f p s :=
  globMatchF_irrel _ p s f (by omega) h

/-- Unfolding: the empty pattern matches exactly the empty string. -/
theorem gm_nil (s : Str) : globMatch [] s = s.isEmpty := by
  cases s <;> rfl

theorem gm_star_nil (ps : Str) : globMatch ('*' :: ps) [] = globMatch ps [] := by
  rw [globMatch, List.length_cons, List.length_nil, gmF_star_nil]
  exact (globMatch_eq_F _ _ _ (by simp only [List.length_nil]; omega)).symm

theorem gm_star_cons (ps : Str) (c : Char) (cs : Str) :
    globMatch ('*' :: ps) (c :: cs) =
      (globMatch ps (c :: cs) || globMatch ('*' :: ps) cs) := by
  rw [globMatch, List.length_cons, List.length_cons, gmF_star_cons]
  rw [← globMatch_eq_F _ _ _ (by simp only [List.length_cons]; omega),
    ← globMatch_eq_F _ _ _ (by simp only [List.length_cons]; omega)]

theorem gm_lit_nil (c : Char) (ps : Str) (hc : c ≠ '*') :
    globMatch (c :: ps) [] = false := by
  rw [globMatch, List.length_cons, List.length_nil, gmF_lit_nil _ _ _ hc]

theorem gm_lit_cons (c : Char) (ps : Str) (c' : Char) (cs : Str) (hc : c ≠ '*') :
    globMatch (c :: ps) (c' :: cs) = ((c = '?' || c = c') && globMatch ps cs) := by
  rw [globMatch, List.length_cons, List.length_cons, gmF_lit_cons _ _ _ _ _ hc]
  rw [← globMatch_eq_F _ _ _ (by omega)]

/-- A lone `*` matches everything. -/
theorem gm_star_any (s : Str) : globMatch ['*'] s = true := by
  induction s with
  | nil => rfl
  | cons c cs ih => rw [gm_star_cons, ih, Bool.or_true]

/-- A leading `*` absorbs any prefix of the string. -/
theorem gm_star_absorb (p : Str) : ∀ t s : Str,
    globMatch p s = true → globMatch ('*' :: p) (t ++ s) = true := by
  intro t
  induction t with
  | nil =>
    intro s h
    cases s with
    | nil => rw [List.nil_append, gm_star_nil]; exact h
    | cons c cs => rw [List.nil_append, gm_star_cons, h, Bool.true_or]
  | cons a t' ih =>
    intro s h
    rw [List.cons_append, gm_star_cons, ih s h, Bool.or_true]

/-- Matching is stable under prepending the same literal text to the pattern
and the string (any character of the text matches itself). -/
theorem gm_prepend : ∀ j p s : Str,
    globMatch p s = true → globMatch (j ++ p) (j ++ s) = true := by
  intro j
  induction j with
  | nil => intro p s h; simpa using h
  | cons c j' ih =>
    intro p s h
    by_cases hc : c = '*'
    · subst hc
      rw [List.cons_append, List.cons_append, gm_star_cons]
      have h2 := gm_star_absorb (j' ++ p) [] (j' ++ s) (ih p s h)
      rw [List.nil_append] at h2
      rw [h2, Bool.or_true]
    · rw [List.cons_append, List.cons_append, gm_lit_cons _ _ _ _ hc, ih p s h]
      simp

/-- The pattern `*<j>*`, as built by `delete_job` from a job id `j`. -/
def jpat (j : Str) : Str := '*' :: (j ++ ['*'])

/-- `*<j>*` matches every key that contains `j` as a substring. -/
theorem gm_substring (j k : Str) (h : j <:+: k) : globMatch (jpat j) k = true := by
  obtain ⟨t, u, rfl⟩ := h
  have h1 : globMatch (j ++ ['*']) (j ++ u) = true :=
    gm_prepend j ['*'] u (gm_star_any u)
  have h2 := gm_star_absorb (j ++ ['*']) t (j ++ u) h1
  rw [← List.append_assoc] at h2
  exact h2

/-- A pattern with no glob metacharacters. -/
def noWild (p : Str) : Bool := p.all (fun c => ¬(c = '*' ∨ c = '?'))

/-- A metacharacter-free pattern matches only itself. -/
theorem gm_lit_of_match : ∀ p s : Str, noWild p = true → globMatch p s = true → p = s := by
  intro p
  induction p with
  | nil =>
    intro s _ hm
    rw [gm_nil] at hm
    cases s with
    | nil => rfl
    | cons c cs => simp [List.isEmpty] at hm
  | cons c ps ih =>
    intro s hw hm
    simp only [noWild, List.all_cons, Bool.and_eq_true, decide_eq_true_eq] at hw
    obtain ⟨hc, hw'⟩ := hw
    push_neg at hc
    cases s with
    | nil => rw [gm_lit_nil _ _ hc.1] at hm; exact absurd hm (by simp)
    | cons c' cs =>
      rw [gm_lit_cons _ _ _ _ hc.1] at hm
      simp only [Bool.and_eq_true, Bool.or_eq_true, decide_eq_true_eq] at hm
      obtain ⟨hcc, hrest⟩ := hm
      have hce : c = c' := by
        cases hcc with
        | inl h => exact absurd h hc.2
        | inr h => exact h
      rw [hce, ih cs (by simp only [noWild]; exact hw') hrest]

/-- For a metacharacter-free `L`, the pattern `*<L>` matches exactly the
strings that end with `L`. -/
theorem gm_star_suffix (L : Str) (hw : noWild L = true) :
    ∀ s : Str, globMatch ('*' :: L) s = true → L <:+ s := by
  intro s
  induction s with
  | nil =>
    intro h
    rw [gm_star_nil] at h
    have := gm_lit_of_match L [] hw h
    exact this ▸ List.suffix_refl []
  | cons c cs ih =>
    intro h
    rw [gm_star_cons] at h
    rcases Bool.or_eq_true_iff.mp h with h1 | h2
    · exact gm_lit_of_match L (c :: cs) hw h1 ▸ List.suffix_refl _
    · exact (ih h2).trans (List.suffix_cons c cs)

theorem gm_suffix_star (L s : Str) (h : L <:+ s) : globMatch ('*' :: L) s = true := by
  obtain ⟨t, rfl⟩ := h
  have h1 : globMatch L L = true := by
    have := gm_prepend L [] [] rfl
    simpa using this
  exact gm_star_absorb L t L h1

/-! ### Primitive store mutations -/

/-- Rewrite the value stored at `k` through `f`; `f` returning `none` removes
the key (Redis drops a collection key when its last member goes away). -/
def adjustKey : Store → Str → (RVal → Option RVal) → Store
  | [], _, _ => []
  | e :: s, k, f =>
    if e.1 = k then
      match f e.2 with
      | none => adjustKey s k f
      | some v => (k, v) :: adjustKey s k f
    else e :: adjustKey s k f

/-- Keep a collection only if it still has members. -/
def collOrDrop (c : List Str → RVal) (ys : List Str) : Option RVal :=
  if ys = [] then none else some (c ys)

/-- `LREM k 0 v`: remove every occurrence of `v` from the list at `k`. -/
def lrem (s : Store) (k v : Str) : Store :=
  adjustKey s k fun w =>
    match w with
    | .list xs => collOrDrop .list (xs.filter (fun x => x ≠ v))
    | w => some w

/-- `SREM k v`: remove the member `v` from the set at `k`. -/
def srem (s : Store) (k v : Str) : Store :=
  adjustKey s k fun w =>
    match w with
    | .set xs => collOrDrop .set (xs.filter (fun x => x ≠ v))
    | w => some w

/-- `ZREM k v`: remove the member `v` from the sorted set at `k`. -/
def zrem (s : Store) (k v : Str) : Store :=
  adjustKey s k fun w =>
    match w with
    | .zset xs => collOrDrop .zset (xs.filter (fun x => x ≠ v))
    | w => some w

/-- `DEL k`: remove the key `k`; a no-op if `k` is absent. -/
def del : Store → Str → Store
  | [], _ => []
  | e :: s, k => if e.1 = k then del s k else e :: del s k

/-- Delete each key of a list in turn. -/
def delMany (s : Store) : List Str → Store
  | [] => s
  | k :: ks => delMany (del s k) ks

/-! ### The embedded tool (`remove_stuck_job.py`) -/

/-- The decoded result of `r.type(k)`. -/
def typeOf (s : Store) (k : Str) : Str :=
  match lookup s k with
  | some (.list _) => "list".data
  | some (.set _) => "set".data
  | some (.zset _) => "zset".data
  | some .other => "string".data
  | none => "none".data

/-- One `SCAN` round: the slice of up to 5000 keys starting at cursor `cur`. -/
def scanBatch (s : Store) (cur : Nat) : List Str := ((s.drop cur).take 5000).map (fun e => e.1)

/-- The cursor loop of `scan_keys`: each round returns the keys of one batch
that match the pattern; the loop ends when the cursor returns to 0, i.e.
when the batch reached the end of the keyspace.  Fuelled so that the kernel
can evaluate it; `s.length + 1` rounds always suffice. -/
def scanLoopF : Nat → Store → Str → Nat → List Str × List Op
  | 0, _, _, _ => ([], [])
  | f + 1, s, pat, cur =>
    let ks := (scanBatch s cur).filter (fun k => globMatch pat k)
    if cur + 5000 < s.length then
      let rest := scanLoopF f s pat (cur + 5000)
      (ks ++ rest.1, Op.scan pat :: rest.2)
    else (ks, [Op.scan pat])

/-- `scan_keys(pattern)`: all keys matching `pattern`, by cursor rounds. -/
def scan_keys (s : Store) (pat : Str) : List Str × List Op :=
  scanLoopF (s.length + 1) s pat 0

/-- `LRANGE k 0 -1`. -/
def lrangeAll (s : Store) (k : Str) : List Str :=
  match lookup s k with
  | some (.list xs) => xs
  | _ => []

/-- `SMEMBERS k`. -/
def smembersAll (s : Store) (k : Str) : List Str :=
  match lookup s k with
  | some (.set xs) => xs
  | _ => []

/-- `ZRANGE k 0 -1`. -/
def zrangeAll (s : Store) (k : Str) : List Str :=
  match lookup s k with
  | some (.zset xs) => xs
  | _ => []

/-- `get_job_ids(k)`: the member job ids of a container, dispatched on its
runtime type; an unrecognized type yields the empty list. -/
def get_job_ids (s : Store) (k : Str) : List Str × List Op :=
  let t := typeOf s k
  if t = "list".data then (lrangeAll s k, [Op.typ k, Op.lrange k])
  else if t = "set".data then (smembersAll s k, [Op.typ k, Op.smembers k])
  else if t = "zset".data then (zrangeAll s k, [Op.typ k, Op.zrange k])
  else ([], [Op.typ k])

/-- `delete_job(job_id, dry)`: scan for every key containing the job id and
delete each one unless in dry-run. -/
def delete_job (s : Store) (job_id : Str) (dry : Bool) : Store × List Op :=
  let sc := scan_keys s (jpat job_id)
  if dry then (s, sc.2)
  else (delMany s sc.1, sc.2 ++ sc.1.map (fun k => Op.del k))

/-- The `for jid in ids: delete_job(jid, dry)` loop of `clean_container`. -/
def purgeJobs (dry : Bool) (s : Store) : List Str → Store × List Op
  | [] => (s, [])
  | j :: js =>
    let a := delete_job s j dry
    let b := purgeJobs dry a.1 js
    (b.1, a.2 ++ b.2)

/-- The `for jid in ids: r.lrem(k, 0, jid)` style loops of `clean_container`,
generic in which removal command is issued. -/
def remRefs (rem : Store → Str → Str → Store) (k : Str) : Store → List Str → Store
  | s, [] => s
  | s, j :: js => remRefs rem k (rem s k j) js

/-- The result of one `clean_container` call: the store afterwards, the list
of store calls issued, and the report lines printed. -/
structure COut where
  store : Store
  trace : List Op
  reps : List Report
deriving DecidableEq

/-- The `if not dry:` block of `clean_container`: re-read the container's
type and issue one removal command per extracted job id. -/
def removePhase (s : Store) (k : Str) : Bool → List Str → Store × List Op
  | true, _ => (s, [])
  | false, ids =>
    let t := typeOf s k
    if t = "list".data then
      (remRefs lrem k s ids, Op.typ k :: ids.map (fun j => Op.lrem k j))
    else if t = "set".data then
      (remRefs srem k s ids, Op.typ k :: ids.map (fun j => Op.srem k j))
    else if t = "zset".data then
      (remRefs zrem k s ids, Op.typ k :: ids.map (fun j => Op.zrem k j))
    else (s, [Op.typ k])

/-- `clean_container(k, dry)`: extract the member job ids; if none, return
silently.  Otherwise report, remove every reference from the container
(unless dry), then delete every job's data keys. -/
def clean_container (s : Store) (k : Str) (dry : Bool) : COut :=
  let gj := get_job_ids s k
  let ids := gj.1
  if ids = [] then ⟨s, gj.2, []⟩
  else
    let ref := removePhase s k dry ids
    let pj := purgeJobs dry ref.1 ids
    ⟨pj.1, gj.2 ++ ref.2 ++ pj.2, [(k, ids.length)]⟩

/-- The command-line flags of the tool. -/
structure Args where
  clean_failed : Bool
  clean_active : Bool
  clean_queued : Bool
  dry_run : Bool
deriving DecidableEq

/-- `name.endswith(suf)`. -/
def endsWith (s suf : Str) : Bool := suf.isSuffixOf s

/-- The fixed glob patterns the sweep iterates over. -/
def QUEUE_PATTERNS : List Str :=
  ["*:failed".data, "*:active".data, "*:waiting".data, "*:wait".data,
   "*:paused".data, "*:delayed".data]

/-- The six state suffixes tested by the main loop. -/
def stateSuffixes : List Str :=
  [":failed".data, ":active".data, ":waiting".data, ":wait".data,
   ":paused".data, ":delayed".data]

/-- The result of (part of) a sweep: final store, call trace, report lines,
and the containers on which `clean_container` was invoked. -/
structure SwOut where
  store : Store
  trace : List Op
  reps : List Report
  invoked : List Str
deriving DecidableEq

/-- Lift a `clean_container` result into a sweep result, recording the
invocation on `k`. -/
def cInv (c : COut) (k : Str) : SwOut := ⟨c.store, c.trace, c.reps, [k]⟩

/-- The sweep result of doing nothing to `s`. -/
def skipOut (s : Store) : SwOut := ⟨s, [], [], []⟩

/-- One conditional `clean_container` call of the main loop body. -/
def stageOut (cond : Bool) (dry : Bool) (s : Store) (k : Str) : SwOut :=
  if cond then cInv (clean_container s k dry) k else skipOut s

/-- `is_failed and args.clean_failed` for a scanned key. -/
def pkCondF (args : Args) (k : Str) : Bool :=
  endsWith k ":failed".data && args.clean_failed

/-- `is_active and args.clean_active` for a scanned key. -/
def pkCondA (args : Args) (k : Str) : Bool :=
  endsWith k ":active".data && args.clean_active

/-- `is_queued and args.clean_queued` for a scanned key. -/
def pkCondQ (args : Args) (k : Str) : Bool :=
  (endsWith k ":waiting".data || endsWith k ":wait".data ||
    endsWith k ":paused".data || endsWith k ":delayed".data) && args.clean_queued

/-- First conditional of the loop body (`if is_failed and args.clean_failed`). -/
def pkA (args : Args) (s : Store) (k : Str) : SwOut :=
  stageOut (pkCondF args k) args.dry_run s k

/-- Second conditional, acting on the store the first left behind. -/
def pkB (args : Args) (s : Store) (k : Str) : SwOut :=
  stageOut (pkCondA args k) args.dry_run (pkA args s k).store k

/-- Third conditional, acting on the store the second left behind. -/
def pkC (args : Args) (s : Store) (k : Str) : SwOut :=
  stageOut (pkCondQ args k) args.dry_run (pkB args s k).store k

/-- The body of the main loop for one scanned key: classify the key by its
suffix and call `clean_container` for each selected matching state, in the
fixed failed/active/queued order. -/
def processKey (args : Args) (s : Store) (k : Str) : SwOut :=
  ⟨(pkC args s k).store,
    (pkA args s k).trace ++ (pkB args s k).trace ++ (pkC args s k).trace,
    (pkA args s k).reps ++ (pkB args s k).reps ++ (pkC args s k).reps,
    (pkA args s k).invoked ++ (pkB args s k).invoked ++ (pkC args s k).invoked⟩

/-- Process the scanned keys of one pattern in order. -/
def sweepKeys (args : Args) (s : Store) : List Str → SwOut
  | [] => skipOut s
  | k :: ks =>
    let a := processKey args s k
    let b := sweepKeys args a.store ks
    ⟨b.store, a.trace ++ b.trace, a.reps ++ b.reps, a.invoked ++ b.invoked⟩

/-- Sweep a list of patterns in order: scan each pattern's keys, then process
them.  The scan of a pattern sees the store as earlier patterns left it. -/
def sweepPatterns (args : Args) (s : Store) : List Str → SwOut
  | [] => skipOut s
  | p :: ps =>
    let sc := scan_keys s p
    let a := sweepKeys args s sc.1
    let b := sweepPatterns args a.store ps
    ⟨b.store, (sc.2 ++ a.trace) ++ b.trace, a.reps ++ b.reps, a.invoked ++ b.invoked⟩

/-- One full sweep over all fixed patterns. -/
def sweep (args : Args) (s : Store) : SwOut := sweepPatterns args s QUEUE_PATTERNS

/-- The `SystemExit` message raised when no state flag is selected. -/
def usageMsg : Str :=
  "Select at least one: --clean-failed --clean-active --clean-queued".data

/-- `main()`: fail with a usage error before any store access if no state
flag is selected, otherwise run the sweep. -/
def main (args : Args) (s : Store) : Except Str Unit × SwOut :=
  if !(args.clean_failed || args.clean_active || args.clean_queued) then
    (.error usageMsg, skipOut s)
  else (.ok (), sweep args s)

/-- Does the container at `k` hold the member `j`? -/
def hasMember (s : Store) (k j : Str) : Bool :=
  match lookup s k with
  | some (.list xs) => decide (j ∈ xs)
  | some (.set xs) => decide (j ∈ xs)
  | some (.zset xs) => decide (j ∈ xs)
  | _ => false

/-! ### Basic lemmas: `lookup`, `keys`, `adjustKey`, `del` -/

theorem mem_keys_of_mem {s : Store} {e : Str × RVal} (h : e ∈ s) : e.1 ∈ keys s :=
  List.mem_map_of_mem _ h

theorem lookup_eq_none_iff {s : Store} {k : Str} : lookup s k = none ↔ k ∉ keys s := by
  induction s with
  | nil => simp only [lookup, keys, List.map_nil, List.not_mem_nil, not_false_iff]
  | cons e s ih =>
    simp only [lookup, keys, List.map_cons, List.mem_cons]
    by_cases he : e.1 = k
    · rw [if_pos he]
      constructor
      · intro h; exact absurd h (Option.some_ne_none _)
      · intro h; exact absurd (Or.inl he.symm) h
    · rw [if_neg he, ih]
      constructor
      · intro h hk
        rcases hk with hk | hk
        · exact he hk.symm
        · exact h hk
      · intro h hk
        exact h (Or.inr hk)

theorem lookup_isSome_of_mem_keys {s : Store} {k : Str} (h : k ∈ keys s) :
    ∃ v, lookup s k = some v := by
  rcases ho : lookup s k with _ | v
  · exact absurd (lookup_eq_none_iff.mp ho) (by simp [h])
  · exact ⟨v, rfl⟩

theorem keys_adjustKey (s : Store) (k : Str) (f : RVal → Option RVal) :
    keys (adjustKey s k f) <+ keys s := by
  induction s with
  | nil => simp [adjustKey]
  | cons e s ih =>
    by_cases he : e.1 = k
    · rcases hf : f e.2 with _ | v
      · simp only [adjustKey, if_pos he, hf]
        exact ih.trans (List.sublist_cons_self _ _)
      · subst he
        simp only [adjustKey, if_pos rfl, hf, keys, List.map_cons]
        exact ih.cons₂ e.1
    · simp only [adjustKey, if_neg he, keys, List.map_cons]
      exact ih.cons₂ e.1

theorem lookup_adjustKey_ne (s : Store) (k : Str) (f : RVal → Option RVal)
    (k' : Str) (h : k' ≠ k) : lookup (adjustKey s k f) k' = lookup s k' := by
  induction s with
  | nil => rfl
  | cons e s ih =>
    have hek : e.1 = k → e.1 ≠ k' := fun h1 h2 => h (h1.symm.trans h2).symm
    by_cases he : e.1 = k
    · rcases hf : f e.2 with _ | v
      · rw [show adjustKey (e :: s) k f = adjustKey s k f by
            simp only [adjustKey, if_pos he, hf]]
        rw [ih]
        simp only [lookup]
        rw [if_neg (hek he)]
      · rw [show adjustKey (e :: s) k f = (k, v) :: adjustKey s k f by
            simp only [adjustKey, if_pos he, hf]]
        simp only [lookup]
        rw [if_neg (fun hk : k = k' => h hk.symm), if_neg (hek he), ih]
    · rw [show adjustKey (e :: s) k f = e :: adjustKey s k f by
          simp only [adjustKey, if_neg he]]
      simp only [lookup]
      by_cases hk : e.1 = k'
      · rw [if_pos hk, if_pos hk]
      · rw [if_neg hk, if_neg hk, ih]

theorem lookup_none_adjustKey {s : Store} {k : Str} (f : RVal → Option RVal)
    (h : k ∉ keys s) : lookup (adjustKey s k f) k = none :=
  lookup_eq_none_iff.mpr (fun hk => h ((keys_adjustKey s k f).subset hk))

theorem lookup_adjustKey_self (s : Store) (k : Str) (f : RVal → Option RVal)
    (hnd : (keys s).Nodup) : lookup (adjustKey s k f) k = (lookup s k).bind f := by
  induction s with
  | nil => rfl
  | cons e s ih =>
    simp only [keys, List.map_cons, List.nodup_cons] at hnd
    by_cases he : e.1 = k
    · rcases hf : f e.2 with _ | v
      · rw [show adjustKey (e :: s) k f = adjustKey s k f by
            simp only [adjustKey, if_pos he, hf]]
        simp only [lookup]
        rw [if_pos he, lookup_none_adjustKey f (he ▸ hnd.1)]
        simp only [Option.some_bind, hf]
      · rw [show adjustKey (e :: s) k f = (k, v) :: adjustKey s k f by
            simp only [adjustKey, if_pos he, hf]]
        simp only [lookup]
        rw [if_pos he]
        simp only [Option.some_bind, hf]
        split
        · rfl
        · exact absurd trivial (by assumption)
    · rw [show adjustKey (e :: s) k f = e :: adjustKey s k f by
          simp only [adjustKey, if_neg he]]
      simp only [lookup]
      rw [if_neg he, if_neg he]
      exact ih hnd.2

theorem mem_del {s : Store} {k : Str} {e : Str × RVal} :
    e ∈ del s k ↔ e ∈ s ∧ e.1 ≠ k := by
  induction s with
  | nil => simp [del]
  | cons e' s ih =>
    by_cases he : e'.1 = k
    · simp only [del, if_pos he, ih, List.mem_cons]
      constructor
      · exact fun ⟨h1, h2⟩ => ⟨Or.inr h1, h2⟩
      · rintro ⟨h1 | h1, h2⟩
        · exact absurd (h1 ▸ he) h2
        · exact ⟨h1, h2⟩
    · simp only [del, if_neg he, List.mem_cons, ih]
      constructor
      · rintro (rfl | ⟨h1, h2⟩)
        · exact ⟨Or.inl rfl, he⟩
        · exact ⟨Or.inr h1, h2⟩
      · rintro ⟨rfl | h1, h2⟩
        · exact Or.inl rfl
        · exact Or.inr ⟨h1, h2⟩

theorem keys_del (s : Store) (k : Str) : keys (del s k) <+ keys s := by
  induction s with
  | nil => simp [del]
  | cons e s ih =>
    by_cases he : e.1 = k
    · simp only [del, if_pos he]
      exact ih.trans (List.sublist_cons_self _ _)
    · simp only [del, if_neg he, keys, List.map_cons]
      exact ih.cons₂ e.1

theorem mem_delMany {ks : List Str} : ∀ {s : Store} {e : Str × RVal},
    e ∈ delMany s ks ↔ e ∈ s ∧ e.1 ∉ ks := by
  induction ks with
  | nil => simp [delMany]
  | cons k ks ih =>
    intro s e
    simp only [delMany, ih, mem_del, List.mem_cons]
    constructor
    · rintro ⟨⟨h1, h2⟩, h3⟩
      exact ⟨h1, by rintro (rfl | h) <;> [exact h2 rfl; exact h3 h]⟩
    · rintro ⟨h1, h2⟩
      exact ⟨⟨h1, fun hk => h2 (Or.inl hk)⟩, fun hk => h2 (Or.inr hk)⟩

theorem keys_delMany (ks : List Str) : ∀ s : Store, keys (delMany s ks) <+ keys s := by
  induction ks with
  | nil => intro s; simp [delMany]
  | cons k ks ih => intro s; exact (ih (del s k)).trans (keys_del s k)

theorem keys_lrem (s : Store) (k v : Str) : keys (lrem s k v) <+ keys s :=
  keys_adjustKey s k _

theorem keys_srem (s : Store) (k v : Str) : keys (srem s k v) <+ keys s :=
  keys_adjustKey s k _

theorem keys_zrem (s : Store) (k v : Str) : keys (zrem s k v) <+ keys s :=
  keys_adjustKey s k _

/-! ### Scan lemmas -/

theorem scanLoopF_ops (s : Store) (pat : Str) : ∀ f cur : Nat,
    ∀ op ∈ (scanLoopF f s pat cur).2, op = Op.scan pat := by
  intro f
  induction f with
  | zero => intro cur op hop; simp [scanLoopF] at hop
  | succ g ih =>
    intro cur op hop
    simp only [scanLoopF] at hop
    by_cases hcur : cur + 5000 < s.length
    · rw [if_pos hcur] at hop
      simp only [List.mem_cons] at hop
      rcases hop with rfl | hop
      · rfl
      · exact ih (cur + 5000) op hop
    · rw [if_neg hcur] at hop
      simp only [List.mem_cons, List.not_mem_nil, or_false] at hop
      exact hop

theorem scanLoopF_keys (s : Store) (pat : Str) : ∀ f cur : Nat,
    s.length ≤ cur + 5000 * f + 5000 →
    (scanLoopF (f + 1) s pat cur).1 =
      ((s.drop cur).map (fun e => e.1)).filter (fun k => globMatch pat k) := by
  intro f
  induction f with
  | zero =>
    intro cur hb
    have hcur : ¬ cur + 5000 < s.length := by omega
    simp only [scanLoopF, if_neg hcur, scanBatch]
    rw [List.take_of_length_le (by rw [List.length_drop]; omega)]
  | succ g ih =>
    intro cur hb
    by_cases hcur : cur + 5000 < s.length
    · simp only [scanLoopF, if_pos hcur]
      have hrec := ih (cur + 5000) (by omega)
      simp only [scanLoopF] at hrec ⊢
      rw [hrec, scanBatch, ← List.filter_append, ← List.map_append,
        List.drop_take_append_drop]
    · simp only [scanLoopF, if_neg hcur, scanBatch]
      rw [List.take_of_length_le (by rw [List.length_drop]; omega)]

theorem scan_keys_eq (s : Store) (pat : Str) :
    (scan_keys s pat).1 = (keys s).filter (fun k => globMatch pat k) := by
  have h := scanLoopF_keys s pat s.length 0 (by omega)
  rw [scan_keys, h, List.drop_zero, keys]

theorem scan_keys_ops (s : Store) (pat : Str) :
    ∀ op ∈ (scan_keys s pat).2, op = Op.scan pat :=
  scanLoopF_ops s pat _ 0

theorem mem_scan_keys {s : Store} {pat k : Str} :
    k ∈ (scan_keys s pat).1 ↔ k ∈ keys s ∧ globMatch pat k = true := by
  rw [scan_keys_eq, List.mem_filter]

theorem scan_keys_nodup {s : Store} {pat : Str} (h : (keys s).Nodup) :
    (scan_keys s pat).1.Nodup := by
  rw [scan_keys_eq]
  exact h.filter _

/-! ### `delete_job` and `purgeJobs` -/

theorem delete_job_dry (s : Store) (j : Str) :
    (delete_job s j true).1 = s ∧
      ∀ op ∈ (delete_job s j true).2, op = Op.scan (jpat j) := by
  refine ⟨rfl, ?_⟩
  intro op hop
  exact scan_keys_ops s (jpat j) op hop

theorem delete_job_wet_store (s : Store) (j : Str) :
    (delete_job s j false).1 = delMany s (scan_keys s (jpat j)).1 := rfl

theorem delete_job_wet_ops (s : Store) (j : Str) :
    (delete_job s j false).2 =
      (scan_keys s (jpat j)).2 ++ (scan_keys s (jpat j)).1.map (fun k => Op.del k) := rfl

theorem mem_delete_job_wet {s : Store} {j : Str} {e : Str × RVal} :
    e ∈ (delete_job s j false).1 ↔ e ∈ s ∧ e.1 ∉ (scan_keys s (jpat j)).1 := by
  rw [delete_job_wet_store]
  exact mem_delMany

theorem delete_job_sub {s : Store} {j : Str} {dry : Bool} {e : Str × RVal}
    (h : e ∈ (delete_job s j dry).1) : e ∈ s := by
  cases dry
  · exact (mem_delete_job_wet.mp h).1
  · exact (delete_job_dry s j).1 ▸ h

theorem delete_job_no_match {s : Store} {j : Str} {e : Str × RVal}
    (h : e ∈ (delete_job s j false).1) : globMatch (jpat j) e.1 = false := by
  rcases mem_delete_job_wet.mp h with ⟨hmem, hnot⟩
  rcases hgm : globMatch (jpat j) e.1 with _ | _
  · rfl
  · exact absurd (mem_scan_keys.mpr ⟨mem_keys_of_mem hmem, hgm⟩) hnot

theorem keys_delete_job (s : Store) (j : Str) (dry : Bool) :
    keys (delete_job s j dry).1 <+ keys s := by
  cases dry
  · rw [delete_job_wet_store]
    exact keys_delMany _ s
  · rw [(delete_job_dry s j).1]

theorem delete_job_shape (s : Store) (j : Str) (dry : Bool) :
    ∀ op ∈ (delete_job s j dry).2,
      (∃ p, op = Op.scan p) ∨ ∃ k, op = Op.del k ∧ k ∈ keys s := by
  intro op hop
  cases dry
  · rw [delete_job_wet_ops] at hop
    rcases List.mem_append.mp hop with hop | hop
    · exact Or.inl ⟨jpat j, scan_keys_ops s (jpat j) op hop⟩
    · obtain ⟨k, hk, rfl⟩ := List.mem_map.mp hop
      exact Or.inr ⟨k, rfl, (mem_scan_keys.mp hk).1⟩
  · exact Or.inl ⟨jpat j, (delete_job_dry s j).2 op hop⟩

theorem purgeJobs_sub {dry : Bool} : ∀ (ids : List Str) (s : Store) (e : Str × RVal),
    e ∈ (purgeJobs dry s ids).1 → e ∈ s := by
  intro ids
  induction ids with
  | nil => intro s e h; exact h
  | cons j js ih =>
    intro s e h
    exact delete_job_sub (ih _ e h)

theorem keys_purgeJobs (dry : Bool) : ∀ (ids : List Str) (s : Store),
    keys (purgeJobs dry s ids).1 <+ keys s := by
  intro ids
  induction ids with
  | nil => intro s; exact List.Sublist.refl _
  | cons j js ih =>
    intro s
    exact (ih _).trans (keys_delete_job s j dry)

theorem purgeJobs_dry : ∀ (ids : List Str) (s : Store),
    (purgeJobs true s ids).1 = s ∧
      ∀ op ∈ (purgeJobs true s ids).2, ∃ p, op = Op.scan p := by
  intro ids
  induction ids with
  | nil => intro s; exact ⟨rfl, by intro op hop; simp [purgeJobs] at hop⟩
  | cons j js ih =>
    intro s
    have hdj := delete_job_dry s j
    constructor
    · rw [purgeJobs, hdj.1, (ih s).1]
    · intro op hop
      simp only [purgeJobs, List.mem_append] at hop
      rcases hop with hop | hop
      · exact ⟨jpat j, hdj.2 op hop⟩
      · rw [hdj.1] at hop
        exact (ih s).2 op hop

theorem purgeJobs_no_match {j : Str} : ∀ (ids : List Str) (s : Store),
    j ∈ ids → ∀ e ∈ (purgeJobs false s ids).1, globMatch (jpat j) e.1 = false := by
  intro ids
  induction ids with
  | nil => intro s h; exact absurd h (List.not_mem_nil j)
  | cons j' js ih =>
    intro s hj e he
    have he' : e ∈ (purgeJobs false (delete_job s j' false).1 js).1 := he
    rcases List.mem_cons.mp hj with rfl | hj'
    · exact delete_job_no_match (purgeJobs_sub js _ e he')
    · exact ih _ hj' e he'

theorem purgeJobs_shape (dry : Bool) : ∀ (ids : List Str) (s : Store),
    ∀ op ∈ (purgeJobs dry s ids).2,
      (∃ p, op = Op.scan p) ∨ ∃ k, op = Op.del k ∧ k ∈ keys s := by
  intro ids
  induction ids with
  | nil => intro s op hop; simp [purgeJobs] at hop
  | cons j js ih =>
    intro s op hop
    simp only [purgeJobs, List.mem_append] at hop
    rcases hop with hop | hop
    · exact delete_job_shape s j dry op hop
    · rcases ih _ op hop with h | ⟨k, rfl, hk⟩
      · exact Or.inl h
      · exact Or.inr ⟨k, rfl, (keys_delete_job s j dry).subset hk⟩

/-! ### `remRefs` and the reference-removal phase -/

theorem lookup_none_mono {s s' : Store} {k : Str} (hsub : keys s' <+ keys s)
    (h : lookup s k = none) : lookup s' k = none :=
  lookup_eq_none_iff.mpr (fun hk => lookup_eq_none_iff.mp h (hsub.subset hk))

theorem keys_remRefs (rem : Store → Str → Str → Store)
    (hk : ∀ s k v, keys (rem s k v) <+ keys s) (k : Str) :
    ∀ (ids : List Str) (s : Store), keys (remRefs rem k s ids) <+ keys s := by
  intro ids
  induction ids with
  | nil => intro s; exact List.Sublist.refl _
  | cons j js ih => intro s; exact (ih _).trans (hk s k j)

theorem lrem_lookup (s : Store) (k v : Str) (hnd : (keys s).Nodup) (xs : List Str)
    (h : lookup s k = some (.list xs)) :
    lookup (lrem s k v) k = collOrDrop .list (xs.filter (fun x => x ≠ v)) := by
  rw [lrem, lookup_adjustKey_self s k _ hnd, h, Option.some_bind]

theorem srem_lookup (s : Store) (k v : Str) (hnd : (keys s).Nodup) (xs : List Str)
    (h : lookup s k = some (.set xs)) :
    lookup (srem s k v) k = collOrDrop .set (xs.filter (fun x => x ≠ v)) := by
  rw [srem, lookup_adjustKey_self s k _ hnd, h, Option.some_bind]

theorem zrem_lookup (s : Store) (k v : Str) (hnd : (keys s).Nodup) (xs : List Str)
    (h : lookup s k = some (.zset xs)) :
    lookup (zrem s k v) k = collOrDrop .zset (xs.filter (fun x => x ≠ v)) := by
  rw [zrem, lookup_adjustKey_self s k _ hnd, h, Option.some_bind]

/-- Folding a removal command over a covering list of the members empties the
container, so Redis drops its key. -/
theorem remRefs_empties (rem : Store → Str → Str → Store) (c : List Str → RVal) (k : Str)
    (hkeys : ∀ s k v, keys (rem s k v) <+ keys s)
    (hlook : ∀ (s : Store) (xs : List Str) (v : Str), (keys s).Nodup →
      lookup s k = some (c xs) →
      lookup (rem s k v) k = collOrDrop c (xs.filter (fun x => x ≠ v))) :
    ∀ (ids : List Str) (s : Store) (xs : List Str), (keys s).Nodup →
      lookup s k = some (c xs) → (∀ x ∈ xs, x ∈ ids) → xs ≠ [] →
      lookup (remRefs rem k s ids) k = none := by
  intro ids
  induction ids with
  | nil =>
    intro s xs hnd hlk hsub hne
    obtain ⟨x, hx⟩ := List.exists_mem_of_ne_nil xs hne
    exact absurd (hsub x hx) (List.not_mem_nil x)
  | cons j js ih =>
    intro s xs hnd hlk hsub hne
    have h1 := hlook s xs j hnd hlk
    have hnd' : (keys (rem s k j)).Nodup := (hkeys s k j).nodup hnd
    show lookup (remRefs rem k (rem s k j) js) k = none
    by_cases hys : xs.filter (fun x => x ≠ j) = []
    · rw [hys] at h1
      have h1' : lookup (rem s k j) k = none := by
        rw [h1, collOrDrop, if_pos rfl]
      exact lookup_none_mono (keys_remRefs rem hkeys k js _) h1'
    · have h1' : lookup (rem s k j) k = some (c (xs.filter (fun x => x ≠ j))) := by
        rw [h1, collOrDrop, if_neg hys]
      refine ih (rem s k j) _ hnd' h1' ?_ hys
      intro x hx
      rcases List.mem_filter.mp hx with ⟨hxs, hxj⟩
      rcases List.mem_cons.mp (hsub x hxs) with rfl | hxjs
      · simp at hxj
      · exact hxjs

theorem typeOf_list {s : Store} {k : Str} {xs : List Str}
    (h : lookup s k = some (.list xs)) : typeOf s k = "list".data := by
  simp only [typeOf, h]

theorem typeOf_set {s : Store} {k : Str} {xs : List Str}
    (h : lookup s k = some (.set xs)) : typeOf s k = "set".data := by
  simp only [typeOf, h]

theorem typeOf_zset {s : Store} {k : Str} {xs : List Str}
    (h : lookup s k = some (.zset xs)) : typeOf s k = "zset".data := by
  simp only [typeOf, h]

theorem typeOf_other {s : Store} {k : Str}
    (h : lookup s k = some .other) : typeOf s k = "string".data := by
  simp only [typeOf, h]

theorem typeOf_none {s : Store} {k : Str}
    (h : lookup s k = none) : typeOf s k = "none".data := by
  simp only [typeOf, h]

theorem removePhase_list {s : Store} {k : Str} {xs : List Str} (ids : List Str)
    (h : lookup s k = some (.list xs)) :
    removePhase s k false ids =
      (remRefs lrem k s ids, Op.typ k :: ids.map (fun j => Op.lrem k j)) := by
  simp only [removePhase, typeOf_list h, reduceIte]

theorem removePhase_set {s : Store} {k : Str} {xs : List Str} (ids : List Str)
    (h : lookup s k = some (.set xs)) :
    removePhase s k false ids =
      (remRefs srem k s ids, Op.typ k :: ids.map (fun j => Op.srem k j)) := by
  simp only [removePhase, typeOf_set h]
  rw [if_neg (by decide), if_pos (by trivial)]

theorem removePhase_zset {s : Store} {k : Str} {xs : List Str} (ids : List Str)
    (h : lookup s k = some (.zset xs)) :
    removePhase s k false ids =
      (remRefs zrem k s ids, Op.typ k :: ids.map (fun j => Op.zrem k j)) := by
  simp only [removePhase, typeOf_zset h]
  rw [if_neg (by decide), if_neg (by decide), if_pos (by trivial)]

theorem keys_removePhase (s : Store) (k : Str) (dry : Bool) (ids : List Str) :
    keys (removePhase s k dry ids).1 <+ keys s := by
  cases dry
  · simp only [removePhase]
    split
    · exact keys_remRefs lrem keys_lrem k ids s
    · split
      · exact keys_remRefs srem keys_srem k ids s
      · split
        · exact keys_remRefs zrem keys_zrem k ids s
        · exact List.Sublist.refl _
  · exact List.Sublist.refl _

/-! ### `get_job_ids` case analysis -/

theorem gji_list {s : Store} {k : Str} {xs : List Str}
    (h : lookup s k = some (.list xs)) :
    get_job_ids s k = (xs, [Op.typ k, Op.lrange k]) := by
  simp only [get_job_ids, typeOf_list h, reduceIte, lrangeAll, h]

theorem gji_set {s : Store} {k : Str} {xs : List Str}
    (h : lookup s k = some (.set xs)) :
    get_job_ids s k = (xs, [Op.typ k, Op.smembers k]) := by
  simp only [get_job_ids, typeOf_set h]
  rw [if_neg (by decide), if_pos (by trivial)]
  simp only [smembersAll, h]

theorem gji_zset {s : Store} {k : Str} {xs : List Str}
    (h : lookup s k = some (.zset xs)) :
    get_job_ids s k = (xs, [Op.typ k, Op.zrange k]) := by
  simp only [get_job_ids, typeOf_zset h]
  rw [if_neg (by decide), if_neg (by decide), if_pos (by trivial)]
  simp only [zrangeAll, h]

theorem gji_other {s : Store} {k : Str} (h : lookup s k = some .other) :
    get_job_ids s k = ([], [Op.typ k]) := by
  simp only [get_job_ids, typeOf_other h]
  rw [if_neg (by decide), if_neg (by decide), if_neg (by decide)]

theorem gji_none {s : Store} {k : Str} (h : lookup s k = none) :
    get_job_ids s k = ([], [Op.typ k]) := by
  simp only [get_job_ids, typeOf_none h]
  rw [if_neg (by decide), if_neg (by decide), if_neg (by decide)]

/-- The extraction trace is read-only, whatever the container holds. -/
theorem gji_ops_not_mut (s : Store) (k : Str) :
    ∀ op ∈ (get_job_ids s k).2, op.isMut = false := by
  intro op hop
  rcases hl : lookup s k with _ | v
  · rw [gji_none hl] at hop
    simp only [List.mem_singleton] at hop
    subst hop; rfl
  · cases v with
    | list xs =>
      rw [gji_list hl] at hop
      simp only [List.mem_cons, List.not_mem_nil, or_false] at hop
      rcases hop with rfl | rfl <;> rfl
    | set xs =>
      rw [gji_set hl] at hop
      simp only [List.mem_cons, List.not_mem_nil, or_false] at hop
      rcases hop with rfl | rfl <;> rfl
    | zset xs =>
      rw [gji_zset hl] at hop
      simp only [List.mem_cons, List.not_mem_nil, or_false] at hop
      rcases hop with rfl | rfl <;> rfl
    | other =>
      rw [gji_other hl] at hop
      simp only [List.mem_singleton] at hop
      subst hop; rfl

/-! ### `clean_container` lemmas -/

theorem lookup_some_mem_keys {s : Store} {k : Str} {v : RVal}
    (h : lookup s k = some v) : k ∈ keys s := by
  by_contra hk
  rw [lookup_eq_none_iff.mpr hk] at h
  exact Option.noConfusion h

theorem Op.mutKey_eq_none_of_not_mut {op : Op} (h : op.isMut = false) :
    op.mutKey = none := by
  cases op <;> first | rfl | exact absurd h (by simp [Op.isMut])

theorem cc_empty (s : Store) (k : Str) (dry : Bool) (h : (get_job_ids s k).1 = []) :
    clean_container s k dry = ⟨s, (get_job_ids s k).2, []⟩ := by
  simp only [clean_container]
  rw [if_pos h]

theorem cc_pos (s : Store) (k : Str) (dry : Bool) (h : (get_job_ids s k).1 ≠ []) :
    clean_container s k dry =
      ⟨(purgeJobs dry (removePhase s k dry (get_job_ids s k).1).1 (get_job_ids s k).1).1,
        (get_job_ids s k).2 ++ (removePhase s k dry (get_job_ids s k).1).2 ++
          (purgeJobs dry (removePhase s k dry (get_job_ids s k).1).1 (get_job_ids s k).1).2,
        [(k, (get_job_ids s k).1.length)]⟩ := by
  simp only [clean_container]
  rw [if_neg h]

theorem removePhase_dry (s : Store) (k : Str) (ids : List Str) :
    removePhase s k true ids = (s, []) := rfl

theorem keys_clean_container (s : Store) (k : Str) (dry : Bool) :
    keys (clean_container s k dry).store <+ keys s := by
  by_cases h : (get_job_ids s k).1 = []
  · rw [cc_empty s k dry h]
  · rw [cc_pos s k dry h]
    exact (keys_purgeJobs dry _ _).trans (keys_removePhase s k dry _)

/-- The report lines of `clean_container` do not depend on the dry-run flag:
the count is taken before any mutation. -/
theorem cc_reps_dry_invariant (s : Store) (k : Str) :
    (clean_container s k true).reps = (clean_container s k false).reps := by
  by_cases h : (get_job_ids s k).1 = []
  · rw [cc_empty _ _ _ h, cc_empty _ _ _ h]
  · rw [cc_pos _ _ _ h, cc_pos _ _ _ h]

/-- In dry-run mode `clean_container` leaves the store alone and issues only
read calls. -/
theorem cc_dry (s : Store) (k : Str) :
    (clean_container s k true).store = s ∧
      ∀ op ∈ (clean_container s k true).trace, op.isMut = false := by
  by_cases h : (get_job_ids s k).1 = []
  · rw [cc_empty s k true h]
    exact ⟨rfl, gji_ops_not_mut s k⟩
  · rw [cc_pos s k true h, removePhase_dry]
    constructor
    · exact (purgeJobs_dry _ s).1
    · intro op hop
      rcases List.mem_append.mp hop with hop | hop
      · rcases List.mem_append.mp hop with hop | hop
        · exact gji_ops_not_mut s k op hop
        · exact absurd hop (List.not_mem_nil op)
      · obtain ⟨p, rfl⟩ := (purgeJobs_dry _ s).2 op hop
        rfl

/-- After a non-dry purge of a container with at least one extracted job id,
the container's key is gone: every reference-removal loop empties it, and
Redis drops empty collections. -/
theorem cc_wet_gone (s : Store) (k : Str) (hwf : WF s)
    (h : (get_job_ids s k).1 ≠ []) :
    lookup (clean_container s k false).store k = none := by
  rcases hl : lookup s k with _ | v
  · rw [gji_none hl] at h
    exact absurd rfl h
  cases v with
  | list xs =>
    have hids : (get_job_ids s k).1 = xs := by rw [gji_list hl]
    rw [cc_pos s k false h]
    simp only [hids] at *
    rw [removePhase_list xs hl]
    refine lookup_none_mono (keys_purgeJobs false xs _) ?_
    exact remRefs_empties lrem RVal.list k keys_lrem
      (fun s xs v hnd hl2 => lrem_lookup s k v hnd xs hl2) xs s xs hwf hl
      (fun x hx => hx) h
  | set xs =>
    have hids : (get_job_ids s k).1 = xs := by rw [gji_set hl]
    rw [cc_pos s k false h]
    simp only [hids] at *
    rw [removePhase_set xs hl]
    refine lookup_none_mono (keys_purgeJobs false xs _) ?_
    exact remRefs_empties srem RVal.set k keys_srem
      (fun s xs v hnd hl2 => srem_lookup s k v hnd xs hl2) xs s xs hwf hl
      (fun x hx => hx) h
  | zset xs =>
    have hids : (get_job_ids s k).1 = xs := by rw [gji_zset hl]
    rw [cc_pos s k false h]
    simp only [hids] at *
    rw [removePhase_zset xs hl]
    refine lookup_none_mono (keys_purgeJobs false xs _) ?_
    exact remRefs_empties zrem RVal.zset k keys_zrem
      (fun s xs v hnd hl2 => zrem_lookup s k v hnd xs hl2) xs s xs hwf hl
      (fun x hx => hx) h
  | other =>
    rw [gji_other hl] at h
    exact absurd rfl h

/-- After a non-dry purge, the originating container holds no member at all;
in particular none of the extracted job ids. -/
theorem cc_wet_no_member (s : Store) (k : Str) (hwf : WF s)
    (h : (get_job_ids s k).1 ≠ []) (j : Str) :
    hasMember (clean_container s k false).store k j = false := by
  rw [hasMember, cc_wet_gone s k hwf h]

/-- After a non-dry purge, no surviving key contains an extracted job id as a
substring. -/
theorem cc_wet_no_substring (s : Store) (k : Str) :
    ∀ j ∈ (get_job_ids s k).1, ∀ e ∈ (clean_container s k false).store,
      ¬ (j <:+: e.1) := by
  intro j hj e he hinf
  have hne : (get_job_ids s k).1 ≠ [] := List.ne_nil_of_mem hj
  rw [cc_pos s k false hne] at he
  have hnm := purgeJobs_no_match (get_job_ids s k).1 _ hj e he
  rw [gm_substring j e.1 hinf] at hnm
  exact Bool.noConfusion hnm

/-- Every removal call of `removePhase` targets the container itself. -/
theorem removePhase_mutKey (s : Store) (k : Str) (dry : Bool) (ids : List Str) :
    ∀ op ∈ (removePhase s k dry ids).2, ∀ k', op.mutKey = some k' → k' = k := by
  cases dry
  · simp only [removePhase]
    split
    · intro op hop k' hk
      rcases List.mem_cons.mp hop with rfl | hop
      · exact Option.noConfusion hk
      · obtain ⟨j, hj, rfl⟩ := List.mem_map.mp hop
        simp only [Op.mutKey, Option.some_inj] at hk
        exact hk.symm
    · split
      · intro op hop k' hk
        rcases List.mem_cons.mp hop with rfl | hop
        · exact Option.noConfusion hk
        · obtain ⟨j, hj, rfl⟩ := List.mem_map.mp hop
          simp only [Op.mutKey, Option.some_inj] at hk
          exact hk.symm
      · split
        · intro op hop k' hk
          rcases List.mem_cons.mp hop with rfl | hop
          · exact Option.noConfusion hk
          · obtain ⟨j, hj, rfl⟩ := List.mem_map.mp hop
            simp only [Op.mutKey, Option.some_inj] at hk
            exact hk.symm
        · intro op hop k' hk
          rcases List.mem_cons.mp hop with rfl | hop
          · exact Option.noConfusion hk
          · exact absurd hop (List.not_mem_nil op)
  · intro op hop
    exact absurd hop (List.not_mem_nil op)

/-- Every mutating call of `clean_container` targets a key present in the
store it started from. -/
theorem cc_mutKey (s : Store) (k : Str) (dry : Bool) :
    ∀ op ∈ (clean_container s k dry).trace, ∀ k', op.mutKey = some k' →
      k' ∈ keys s := by
  intro op hop k' hk
  by_cases h : (get_job_ids s k).1 = []
  · rw [cc_empty s k dry h] at hop
    rw [Op.mutKey_eq_none_of_not_mut (gji_ops_not_mut s k op hop)] at hk
    exact Option.noConfusion hk
  · have hkk : k ∈ keys s := by
      rcases hl : lookup s k with _ | v
      · rw [gji_none hl] at h; exact absurd rfl h
      · exact lookup_some_mem_keys hl
    rw [cc_pos s k dry h] at hop
    rcases List.mem_append.mp hop with hop | hop
    · rcases List.mem_append.mp hop with hop | hop
      · rw [Op.mutKey_eq_none_of_not_mut (gji_ops_not_mut s k op hop)] at hk
        exact Option.noConfusion hk
      · rw [removePhase_mutKey s k dry _ op hop k' hk]
        exact hkk
    · rcases purgeJobs_shape dry _ _ op hop with ⟨p, rfl⟩ | ⟨k2, rfl, hk2⟩
      · exact Option.noConfusion hk
      · simp only [Op.mutKey, Option.some_inj] at hk
        subst hk
        exact (keys_removePhase s k dry _).subset hk2

/-- Every report line of `clean_container` names the container, and a report
is only ever produced for a present key. -/
theorem cc_reps_key (s : Store) (k : Str) (dry : Bool) :
    ∀ r ∈ (clean_container s k dry).reps, r.1 = k ∧ k ∈ keys s := by
  intro r hr
  by_cases h : (get_job_ids s k).1 = []
  · rw [cc_empty s k dry h] at hr
    exact absurd hr (List.not_mem_nil r)
  · have hkk : k ∈ keys s := by
      rcases hl : lookup s k with _ | v
      · rw [gji_none hl] at h; exact absurd rfl h
      · exact lookup_some_mem_keys hl
    rw [cc_pos s k dry h] at hr
    rcases List.mem_cons.mp hr with rfl | hr
    · exact ⟨rfl, hkk⟩
    · exact absurd hr (List.not_mem_nil r)

/-! ### Suffix classification -/

theorem endsWith_iff_suffix {k suf : Str} : endsWith k suf = true ↔ suf <:+ k := by
  rw [endsWith, List.isSuffixOf_iff_suffix]

/-- No state suffix is a proper suffix of another: checked by evaluation. -/
theorem stateSuffixes_exclusive : ∀ s₁ ∈ stateSuffixes, ∀ s₂ ∈ stateSuffixes,
    s₁ <:+ s₂ → s₁ = s₂ := by decide

/-- At most one of the six state suffixes can match a key name: two suffixes
of the same string are comparable, and no two distinct state suffixes are. -/
theorem suffix_unique (k : Str) : ∀ s₁ ∈ stateSuffixes, ∀ s₂ ∈ stateSuffixes,
    endsWith k s₁ = true → endsWith k s₂ = true → s₁ = s₂ := by
  intro s₁ h₁ s₂ h₂ e₁ e₂
  rcases List.suffix_or_suffix_of_suffix (endsWith_iff_suffix.mp e₁)
      (endsWith_iff_suffix.mp e₂) with h | h
  · exact stateSuffixes_exclusive s₁ h₁ s₂ h₂ h
  · exact (stateSuffixes_exclusive s₂ h₂ s₁ h₁ h).symm

theorem endsWith_excl {k s₁ s₂ : Str} (h₁ : s₁ ∈ stateSuffixes) (h₂ : s₂ ∈ stateSuffixes)
    (hne : s₁ ≠ s₂) (he : endsWith k s₁ = true) : endsWith k s₂ = false := by
  rcases h : endsWith k s₂ with _ | _
  · rfl
  · exact absurd (suffix_unique k s₁ h₁ s₂ h₂ he h) hne

/-! ### Stage and `processKey` lemmas -/

theorem keys_stageOut (cond dry : Bool) (s : Store) (k : Str) :
    keys (stageOut cond dry s k).store <+ keys s := by
  rw [stageOut]
  split
  · exact keys_clean_container s k dry
  · exact List.Sublist.refl _

theorem wf_mono {s s' : Store} (hsub : keys s' <+ keys s) (h : WF s) : WF s' :=
  List.Nodup.sublist hsub h

theorem stage_mutKey (cond dry : Bool) (s : Store) (k : Str) :
    ∀ op ∈ (stageOut cond dry s k).trace, ∀ k', op.mutKey = some k' →
      k' ∈ keys s := by
  rw [stageOut]
  split
  · exact cc_mutKey s k dry
  · intro op hop; exact absurd hop (List.not_mem_nil op)

theorem stage_reps_key (cond dry : Bool) (s : Store) (k : Str) :
    ∀ r ∈ (stageOut cond dry s k).reps, r.1 = k ∧ k ∈ keys s := by
  rw [stageOut]
  split
  · exact cc_reps_key s k dry
  · intro r hr; exact absurd hr (List.not_mem_nil r)

theorem stage_rep_gone (cond dry : Bool) (hdry : dry = false) (s : Store) (k : Str)
    (hwf : WF s) :
    ∀ r ∈ (stageOut cond dry s k).reps,
      lookup (stageOut cond dry s k).store r.1 = none := by
  subst hdry
  rw [stageOut]
  split
  · intro r hr
    have hri : r ∈ (clean_container s k false).reps := hr
    have hne : (get_job_ids s k).1 ≠ [] := by
      intro h
      rw [show (clean_container s k false).reps = [] by rw [cc_empty s k false h]] at hri
      exact absurd hri (List.not_mem_nil r)
    show lookup (clean_container s k false).store r.1 = none
    rw [(cc_reps_key s k false r hri).1]
    exact cc_wet_gone s k hwf hne
  · intro r hr; exact absurd hr (List.not_mem_nil r)

theorem stage_invoked (cond dry : Bool) (s : Store) (k : Str) :
    (stageOut cond dry s k).invoked = [] ∨ (stageOut cond dry s k).invoked = [k] := by
  rw [stageOut]
  split
  · exact Or.inr rfl
  · exact Or.inl rfl

theorem stage_invoked_pos {cond : Bool} (dry : Bool) {s : Store} {k : Str}
    (h : cond = true) : (stageOut cond dry s k).invoked = [k] := by
  rw [stageOut, h]
  rfl

theorem stage_invoked_neg {cond : Bool} (dry : Bool) {s : Store} {k : Str}
    (h : cond = false) : (stageOut cond dry s k).invoked = [] := by
  rw [stageOut, h]
  rfl

theorem stage_dry (cond dry : Bool) (hdry : dry = true) (s : Store) (k : Str) :
    (stageOut cond dry s k).store = s ∧
      ∀ op ∈ (stageOut cond dry s k).trace, op.isMut = false := by
  subst hdry
  rw [stageOut]
  split
  · exact cc_dry s k
  · exact ⟨rfl, fun op hop => absurd hop (List.not_mem_nil op)⟩

theorem keys_processKey (args : Args) (s : Store) (k : Str) :
    keys (processKey args s k).store <+ keys s :=
  (keys_stageOut _ _ _ _).trans ((keys_stageOut _ _ _ _).trans (keys_stageOut _ _ _ _))

theorem pk_mutKey (args : Args) (s : Store) (k : Str) :
    ∀ op ∈ (processKey args s k).trace, ∀ k', op.mutKey = some k' →
      k' ∈ keys s := by
  intro op hop k' hk
  rcases List.mem_append.mp hop with hop | hopc
  · rcases List.mem_append.mp hop with hopa | hopb
    · exact stage_mutKey _ _ _ _ op hopa k' hk
    · exact (keys_stageOut _ _ _ _).subset (stage_mutKey _ _ _ _ op hopb k' hk)
  · exact (keys_stageOut _ _ _ _).subset
      ((keys_stageOut _ _ _ _).subset (stage_mutKey _ _ _ _ op hopc k' hk))

theorem pk_reps_key (args : Args) (s : Store) (k : Str) :
    ∀ r ∈ (processKey args s k).reps, r.1 = k ∧ r.1 ∈ keys s := by
  intro r hr
  rcases List.mem_append.mp hr with hr | hrc
  · rcases List.mem_append.mp hr with hra | hrb
    · have h := stage_reps_key _ _ _ _ r hra
      exact ⟨h.1, h.1 ▸ h.2⟩
    · have h := stage_reps_key _ _ _ _ r hrb
      exact ⟨h.1, (keys_stageOut _ _ _ _).subset (h.1 ▸ h.2)⟩
  · have h := stage_reps_key _ _ _ _ r hrc
    exact ⟨h.1, (keys_stageOut _ _ _ _).subset
      ((keys_stageOut _ _ _ _).subset (h.1 ▸ h.2))⟩

theorem pk_rep_gone (args : Args) (s : Store) (k : Str) (hwf : WF s)
    (hdry : args.dry_run = false) :
    ∀ r ∈ (processKey args s k).reps,
      lookup (processKey args s k).store r.1 = none := by
  intro r hr
  have hwfA : WF (pkA args s k).store := wf_mono (keys_stageOut _ _ _ _) hwf
  have hwfB : WF (pkB args s k).store := wf_mono (keys_stageOut _ _ _ _) hwfA
  rcases List.mem_append.mp hr with hr | hrc
  · rcases List.mem_append.mp hr with hra | hrb
    · have h1 : lookup (pkA args s k).store r.1 = none :=
        stage_rep_gone (pkCondF args k) args.dry_run hdry s k hwf r hra
      exact lookup_none_mono (keys_stageOut _ _ _ _)
        (lookup_none_mono (keys_stageOut _ _ _ _) h1)
    · have h1 : lookup (pkB args s k).store r.1 = none :=
        stage_rep_gone (pkCondA args k) args.dry_run hdry _ k hwfA r hrb
      exact lookup_none_mono (keys_stageOut _ _ _ _) h1
  · exact stage_rep_gone (pkCondQ args k) args.dry_run hdry _ k hwfB r hrc

theorem pk_dry (args : Args) (s : Store) (k : Str) (hdry : args.dry_run = true) :
    (processKey args s k).store = s ∧
      ∀ op ∈ (processKey args s k).trace, op.isMut = false := by
  have hA := stage_dry (pkCondF args k) args.dry_run hdry s k
  have hB := stage_dry (pkCondA args k) args.dry_run hdry (pkA args s k).store k
  have hC := stage_dry (pkCondQ args k) args.dry_run hdry (pkB args s k).store k
  constructor
  · show (pkC args s k).store = s
    rw [pkC]
    rw [hC.1]
    show (pkB args s k).store = s
    rw [pkB, hB.1]
    exact hA.1
  · intro op hop
    rcases List.mem_append.mp hop with hop | hopc
    · rcases List.mem_append.mp hop with hopa | hopb
      · exact hA.2 op hopa
      · exact hB.2 op hopb
    · exact hC.2 op hopc

/-- Membership facts about the fixed suffix table, checked by evaluation. -/
theorem failed_mem : (":failed".data : Str) ∈ stateSuffixes := by decide

theorem active_mem : (":active".data : Str) ∈ stateSuffixes := by decide

theorem waiting_mem : (":waiting".data : Str) ∈ stateSuffixes := by decide

theorem wait_mem : (":wait".data : Str) ∈ stateSuffixes := by decide

theorem paused_mem : (":paused".data : Str) ∈ stateSuffixes := by decide

theorem delayed_mem : (":delayed".data : Str) ∈ stateSuffixes := by decide

/-- If a key ends in `:failed`, the queued disjunction is false. -/
theorem condQ_false_of_failed {k : Str} (h : endsWith k ":failed".data = true) :
    (endsWith k ":waiting".data || endsWith k ":wait".data ||
      endsWith k ":paused".data || endsWith k ":delayed".data) = false := by
  rw [endsWith_excl failed_mem waiting_mem (by decide) h,
    endsWith_excl failed_mem wait_mem (by decide) h,
    endsWith_excl failed_mem paused_mem (by decide) h,
    endsWith_excl failed_mem delayed_mem (by decide) h]
  rfl

/-- If a key ends in `:active`, the queued disjunction is false. -/
theorem condQ_false_of_active {k : Str} (h : endsWith k ":active".data = true) :
    (endsWith k ":waiting".data || endsWith k ":wait".data ||
      endsWith k ":paused".data || endsWith k ":delayed".data) = false := by
  rw [endsWith_excl active_mem waiting_mem (by decide) h,
    endsWith_excl active_mem wait_mem (by decide) h,
    endsWith_excl active_mem paused_mem (by decide) h,
    endsWith_excl active_mem delayed_mem (by decide) h]
  rfl

theorem bool_and_left {a b : Bool} (h : (a && b) = true) : a = true := by
  cases a
  · simp at h
  · rfl

theorem pkA_invoked_pos {args : Args} {s : Store} {k : Str}
    (h : pkCondF args k = true) : (pkA args s k).invoked = [k] :=
  stage_invoked_pos _ h

theorem pkA_invoked_neg {args : Args} {s : Store} {k : Str}
    (h : pkCondF args k = false) : (pkA args s k).invoked = [] :=
  stage_invoked_neg _ h

theorem pkB_invoked_pos {args : Args} {s : Store} {k : Str}
    (h : pkCondA args k = true) : (pkB args s k).invoked = [k] :=
  stage_invoked_pos _ h

theorem pkB_invoked_neg {args : Args} {s : Store} {k : Str}
    (h : pkCondA args k = false) : (pkB args s k).invoked = [] :=
  stage_invoked_neg _ h

theorem pkC_invoked_pos {args : Args} {s : Store} {k : Str}
    (h : pkCondQ args k = true) : (pkC args s k).invoked = [k] :=
  stage_invoked_pos _ h

theorem pkC_invoked_neg {args : Args} {s : Store} {k : Str}
    (h : pkCondQ args k = false) : (pkC args s k).invoked = [] :=
  stage_invoked_neg _ h

/-- Because the six state suffixes are pairwise exclusive, at most one of the
three conditionals of the loop body fires, so `clean_container` runs at most
once per processed key. -/
theorem pk_invoked (args : Args) (s : Store) (k : Str) :
    (processKey args s k).invoked = [] ∨ (processKey args s k).invoked = [k] := by
  have hinv : (processKey args s k).invoked =
      (pkA args s k).invoked ++ (pkB args s k).invoked ++ (pkC args s k).invoked := rfl
  by_cases hf : pkCondF args k = true
  · have hef : endsWith k ":failed".data = true := bool_and_left hf
    have hA : (pkA args s k).invoked = [k] := pkA_invoked_pos hf
    have hB : (pkB args s k).invoked = [] := by
      refine pkB_invoked_neg ?_
      rw [pkCondA, endsWith_excl failed_mem active_mem (by decide) hef]
      rfl
    have hC : (pkC args s k).invoked = [] := by
      refine pkC_invoked_neg ?_
      rw [pkCondQ, condQ_false_of_failed hef]
      rfl
    rw [hinv, hA, hB, hC]
    exact Or.inr rfl
  · have hA : (pkA args s k).invoked = [] :=
      pkA_invoked_neg (Bool.eq_false_iff.mpr hf)
    by_cases ha : pkCondA args k = true
    · have hea : endsWith k ":active".data = true := bool_and_left ha
      have hB : (pkB args s k).invoked = [k] := pkB_invoked_pos ha
      have hC : (pkC args s k).invoked = [] := by
        refine pkC_invoked_neg ?_
        rw [pkCondQ, condQ_false_of_active hea]
        rfl
      rw [hinv, hA, hB, hC]
      exact Or.inr rfl
    · have hB : (pkB args s k).invoked = [] :=
        pkB_invoked_neg (Bool.eq_false_iff.mpr ha)
      by_cases hq : pkCondQ args k = true
      · have hC : (pkC args s k).invoked = [k] := pkC_invoked_pos hq
        rw [hinv, hA, hB, hC]
        exact Or.inr rfl
      · have hC : (pkC args s k).invoked = [] :=
          pkC_invoked_neg (Bool.eq_false_iff.mpr hq)
        rw [hinv, hA, hB, hC]
        exact Or.inl rfl

/-- A key is only ever invoked if one of the state suffixes matches it. -/
theorem pk_invoked_suffix (args : Args) (s : Store) (k : Str) :
    ∀ x ∈ (processKey args s k).invoked,
      x = k ∧ ∃ suf ∈ stateSuffixes, endsWith k suf = true := by
  intro x hx
  have hinv : (processKey args s k).invoked =
      (pkA args s k).invoked ++ (pkB args s k).invoked ++ (pkC args s k).invoked := rfl
  rw [hinv] at hx
  rcases List.mem_append.mp hx with hx | hxc
  · rcases List.mem_append.mp hx with hxa | hxb
    · by_cases hc : pkCondF args k = true
      · have hxk : x = k := by
          rw [pkA_invoked_pos hc] at hxa
          exact List.mem_singleton.mp hxa
        exact ⟨hxk, ":failed".data, failed_mem, bool_and_left hc⟩
      · rw [pkA_invoked_neg (Bool.eq_false_iff.mpr hc)] at hxa
        exact absurd hxa (List.not_mem_nil x)
    · by_cases hc : pkCondA args k = true
      · have hxk : x = k := by
          rw [pkB_invoked_pos hc] at hxb
          exact List.mem_singleton.mp hxb
        exact ⟨hxk, ":active".data, active_mem, bool_and_left hc⟩
      · rw [pkB_invoked_neg (Bool.eq_false_iff.mpr hc)] at hxb
        exact absurd hxb (List.not_mem_nil x)
  · by_cases hc : pkCondQ args k = true
    · have hxk : x = k := by
        rw [pkC_invoked_pos hc] at hxc
        exact List.mem_singleton.mp hxc
      have hd := bool_and_left hc
      rcases Bool.or_eq_true_iff.mp hd with hd | hdl
      · rcases Bool.or_eq_true_iff.mp hd with hd | hpa
        · rcases Bool.or_eq_true_iff.mp hd with hw | hwt
          · exact ⟨hxk, ":waiting".data, waiting_mem, hw⟩
          · exact ⟨hxk, ":wait".data, wait_mem, hwt⟩
        · exact ⟨hxk, ":paused".data, paused_mem, hpa⟩
      · exact ⟨hxk, ":delayed".data, delayed_mem, hdl⟩
    · rw [pkC_invoked_neg (Bool.eq_false_iff.mpr hc)] at hxc
      exact absurd hxc (List.not_mem_nil x)

/-! ### `sweepKeys` and `sweepPatterns` lemmas -/

theorem keys_sweepKeys (args : Args) : ∀ (ks : List Str) (s : Store),
    keys (sweepKeys args s ks).store <+ keys s := by
  intro ks
  induction ks with
  | nil => intro s; exact List.Sublist.refl _
  | cons k ks ih =>
    intro s
    exact (ih _).trans (keys_processKey args s k)

theorem sk_mutKey (args : Args) : ∀ (ks : List Str) (s : Store),
    ∀ op ∈ (sweepKeys args s ks).trace, ∀ k', op.mutKey = some k' →
      k' ∈ keys s := by
  intro ks
  induction ks with
  | nil => intro s op hop; exact absurd hop (List.not_mem_nil op)
  | cons k ks ih =>
    intro s op hop k' hk
    rcases List.mem_append.mp hop with hop | hop
    · exact pk_mutKey args s k op hop k' hk
    · exact (keys_processKey args s k).subset (ih _ op hop k' hk)

theorem sk_reps_key (args : Args) : ∀ (ks : List Str) (s : Store),
    ∀ r ∈ (sweepKeys args s ks).reps, r.1 ∈ keys s := by
  intro ks
  induction ks with
  | nil => intro s r hr; exact absurd hr (List.not_mem_nil r)
  | cons k ks ih =>
    intro s r hr
    rcases List.mem_append.mp hr with hr | hr
    · exact (pk_reps_key args s k r hr).2
    · exact (keys_processKey args s k).subset (ih _ r hr)

theorem sk_rep_gone (args : Args) (hdry : args.dry_run = false) :
    ∀ (ks : List Str) (s : Store), WF s →
    ∀ r ∈ (sweepKeys args s ks).reps,
      lookup (sweepKeys args s ks).store r.1 = none := by
  intro ks
  induction ks with
  | nil => intro s _ r hr; exact absurd hr (List.not_mem_nil r)
  | cons k ks ih =>
    intro s hwf r hr
    rcases List.mem_append.mp hr with hr | hr
    · exact lookup_none_mono (keys_sweepKeys args ks _)
        (pk_rep_gone args s k hwf hdry r hr)
    · exact ih _ (wf_mono (keys_processKey args s k) hwf) r hr

theorem sk_invoked_sublist (args : Args) : ∀ (ks : List Str) (s : Store),
    (sweepKeys args s ks).invoked <+ ks := by
  intro ks
  induction ks with
  | nil => intro s; exact List.Sublist.refl _
  | cons k ks ih =>
    intro s
    have hshape : (sweepKeys args s (k :: ks)).invoked =
      (processKey args s k).invoked ++ (sweepKeys args (processKey args s k).store ks).invoked := rfl
    rw [hshape]
    rcases pk_invoked args s k with h | h
    · rw [h, List.nil_append]
      exact (ih _).trans (List.sublist_cons_self k ks)
    · rw [h, List.singleton_append]
      exact (ih _).cons₂ k

theorem sk_dry (args : Args) (hdry : args.dry_run = true) :
    ∀ (ks : List Str) (s : Store),
    (sweepKeys args s ks).store = s ∧
      ∀ op ∈ (sweepKeys args s ks).trace, op.isMut = false := by
  intro ks
  induction ks with
  | nil => intro s; exact ⟨rfl, fun op hop => absurd hop (List.not_mem_nil op)⟩
  | cons k ks ih =>
    intro s
    have hp := pk_dry args s k hdry
    constructor
    · show (sweepKeys args (processKey args s k).store ks).store = s
      rw [(ih _).1, hp.1]
    · intro op hop
      rcases List.mem_append.mp hop with hop | hop
      · exact hp.2 op hop
      · exact (ih _).2 op hop

theorem keys_sweepPatterns (args : Args) : ∀ (ps : List Str) (s : Store),
    keys (sweepPatterns args s ps).store <+ keys s := by
  intro ps
  induction ps with
  | nil => intro s; exact List.Sublist.refl _
  | cons p ps ih =>
    intro s
    exact (ih _).trans (keys_sweepKeys args _ s)

theorem sp_mutKey (args : Args) : ∀ (ps : List Str) (s : Store),
    ∀ op ∈ (sweepPatterns args s ps).trace, ∀ k', op.mutKey = some k' →
      k' ∈ keys s := by
  intro ps
  induction ps with
  | nil => intro s op hop; exact absurd hop (List.not_mem_nil op)
  | cons p ps ih =>
    intro s op hop k' hk
    rcases List.mem_append.mp hop with hop | hop
    · rcases List.mem_append.mp hop with hop | hop
      · rw [scan_keys_ops s p op hop] at hk
        exact Option.noConfusion hk
      · exact sk_mutKey args _ s op hop k' hk
    · exact (keys_sweepKeys args _ s).subset (ih _ op hop k' hk)

theorem sp_reps_key (args : Args) : ∀ (ps : List Str) (s : Store),
    ∀ r ∈ (sweepPatterns args s ps).reps, r.1 ∈ keys s := by
  intro ps
  induction ps with
  | nil => intro s r hr; exact absurd hr (List.not_mem_nil r)
  | cons p ps ih =>
    intro s r hr
    rcases List.mem_append.mp hr with hr | hr
    · exact sk_reps_key args _ s r hr
    · exact (keys_sweepKeys args _ s).subset (ih _ r hr)

theorem sp_rep_gone (args : Args) (hdry : args.dry_run = false) :
    ∀ (ps : List Str) (s : Store), WF s →
    ∀ r ∈ (sweepPatterns args s ps).reps,
      lookup (sweepPatterns args s ps).store r.1 = none := by
  intro ps
  induction ps with
  | nil => intro s _ r hr; exact absurd hr (List.not_mem_nil r)
  | cons p ps ih =>
    intro s hwf r hr
    rcases List.mem_append.mp hr with hr | hr
    · exact lookup_none_mono (keys_sweepPatterns args ps _)
        (sk_rep_gone args hdry _ s hwf r hr)
    · exact ih _ (wf_mono (keys_sweepKeys args _ s) hwf) r hr

theorem sp_dry (args : Args) (hdry : args.dry_run = true) :
    ∀ (ps : List Str) (s : Store),
    (sweepPatterns args s ps).store = s ∧
      ∀ op ∈ (sweepPatterns args s ps).trace, op.isMut = false := by
  intro ps
  induction ps with
  | nil => intro s; exact ⟨rfl, fun op hop => absurd hop (List.not_mem_nil op)⟩
  | cons p ps ih =>
    intro s
    have hk := sk_dry args hdry (scan_keys s p).1 s
    constructor
    · show (sweepPatterns args (sweepKeys args s (scan_keys s p).1).store ps).store = s
      rw [hk.1, (ih _).1]
    · intro op hop
      rcases List.mem_append.mp hop with hop | hop
      · rcases List.mem_append.mp hop with hop | hop
        · rw [scan_keys_ops s p op hop]
          rfl
        · exact hk.2 op hop
      · rw [hk.1] at hop
        exact (ih s).2 op hop

/-! ### Invocation uniqueness across the sweep -/

theorem stateSuffixes_noWild : ∀ suf ∈ stateSuffixes, noWild suf = true := by decide

/-- Every invoked key carries the suffix of one of the swept patterns. -/
theorem sp_invoked_suffix (args : Args) : ∀ (ps : List Str) (s : Store),
    (∀ p ∈ ps, ∃ suf ∈ stateSuffixes, p = '*' :: suf) →
    ∀ x ∈ (sweepPatterns args s ps).invoked,
      ∃ suf ∈ stateSuffixes, ('*' :: suf) ∈ ps ∧ endsWith x suf = true := by
  intro ps
  induction ps with
  | nil => intro s _ x hx; exact absurd hx (List.not_mem_nil x)
  | cons p ps ih =>
    intro s hps x hx
    have hshape : (sweepPatterns args s (p :: ps)).invoked =
        (sweepKeys args s (scan_keys s p).1).invoked ++
          (sweepPatterns args (sweepKeys args s (scan_keys s p).1).store ps).invoked := rfl
    rw [hshape] at hx
    rcases List.mem_append.mp hx with hx | hx
    · obtain ⟨suf, hsuf, rfl⟩ := hps p (List.mem_cons_self p ps)
      have hxs : x ∈ (scan_keys s ('*' :: suf)).1 :=
        (sk_invoked_sublist args _ s).subset hx
      have hgm := (mem_scan_keys.mp hxs).2
      exact ⟨suf, hsuf, List.mem_cons_self _ ps,
        endsWith_iff_suffix.mpr (gm_star_suffix suf (stateSuffixes_noWild suf hsuf) x hgm)⟩
    · obtain ⟨suf, hsuf, hmem, hend⟩ :=
        ih _ (fun q hq => hps q (List.mem_cons_of_mem p hq)) x hx
      exact ⟨suf, hsuf, List.mem_cons_of_mem p hmem, hend⟩

/-- Each key is invoked at most once per sweep: within one pattern the
scanned keys are distinct, and across patterns the state suffixes are
pairwise exclusive. -/
theorem sp_invoked_nodup (args : Args) : ∀ (ps : List Str) (s : Store), WF s →
    (∀ p ∈ ps, ∃ suf ∈ stateSuffixes, p = '*' :: suf) → ps.Nodup →
    (sweepPatterns args s ps).invoked.Nodup := by
  intro ps
  induction ps with
  | nil => intro s _ _ _; exact List.nodup_nil
  | cons p ps ih =>
    intro s hwf hps hnd
    have hshape : (sweepPatterns args s (p :: ps)).invoked =
        (sweepKeys args s (scan_keys s p).1).invoked ++
          (sweepPatterns args (sweepKeys args s (scan_keys s p).1).store ps).invoked := rfl
    rw [hshape]
    refine List.Nodup.append ?_ ?_ ?_
    · exact List.Nodup.sublist (sk_invoked_sublist args _ s) (scan_keys_nodup hwf)
    · exact ih _ (wf_mono (keys_sweepKeys args _ s) hwf)
        (fun q hq => hps q (List.mem_cons_of_mem p hq)) (List.nodup_cons.mp hnd).2
    · intro x hxa hxb
      obtain ⟨suf, hsuf, rfl⟩ := hps p (List.mem_cons_self p ps)
      have hxs : x ∈ (scan_keys s ('*' :: suf)).1 :=
        (sk_invoked_sublist args _ s).subset hxa
      have hend₁ : endsWith x suf = true :=
        endsWith_iff_suffix.mpr
          (gm_star_suffix suf (stateSuffixes_noWild suf hsuf) x (mem_scan_keys.mp hxs).2)
      obtain ⟨suf₂, hsuf₂, hmem₂, hend₂⟩ :=
        sp_invoked_suffix args ps _ (fun q hq => hps q (List.mem_cons_of_mem _ hq)) x hxb
      have : suf = suf₂ := suffix_unique x suf hsuf suf₂ hsuf₂ hend₁ hend₂
      subst this
      exact (List.nodup_cons.mp hnd).1 hmem₂

/-- Each state suffix corresponds exactly to its glob pattern. -/
theorem pattern_iff_suffix (k : Str) : ∀ suf ∈ stateSuffixes,
    (globMatch ('*' :: suf) k = true ↔ endsWith k suf = true) := by
  intro suf hsuf
  constructor
  · intro h
    exact endsWith_iff_suffix.mpr (gm_star_suffix suf (stateSuffixes_noWild suf hsuf) k h)
  · intro h
    exact gm_suffix_star suf k (endsWith_iff_suffix.mp h)

/-! ### Trace-order infrastructure -/

/-- Is this call a removal of `j`'s reference from some container? -/
def isRemOf (j : Str) : Op → Bool
  | .lrem _ v => v = j
  | .srem _ v => v = j
  | .zrem _ v => v = j
  | _ => false

/-- Is this call a deletion of a store key associated with `j`, i.e. one
whose name contains `j` as a substring? -/
def isDelOf (j : Str) : Op → Bool
  | .del key => decide (j <:+: key)
  | _ => false

theorem removePhase_no_del (s : Store) (k : Str) (dry : Bool) (ids : List Str) :
    ∀ op ∈ (removePhase s k dry ids).2, ∀ j, isDelOf j op = false := by
  cases dry
  · simp only [removePhase]
    split
    · intro op hop j
      rcases List.mem_cons.mp hop with rfl | hop
      · rfl
      · obtain ⟨v, hv, rfl⟩ := List.mem_map.mp hop
        rfl
    · split
      · intro op hop j
        rcases List.mem_cons.mp hop with rfl | hop
        · rfl
        · obtain ⟨v, hv, rfl⟩ := List.mem_map.mp hop
          rfl
      · split
        · intro op hop j
          rcases List.mem_cons.mp hop with rfl | hop
          · rfl
          · obtain ⟨v, hv, rfl⟩ := List.mem_map.mp hop
            rfl
        · intro op hop j
          rcases List.mem_cons.mp hop with rfl | hop
          · rfl
          · exact absurd hop (List.not_mem_nil op)
  · intro op hop; exact absurd hop (List.not_mem_nil op)

theorem isDelOf_false_of_not_mut {j : Str} {op : Op} (h : op.isMut = false) :
    isDelOf j op = false := by
  cases op <;> first | rfl | exact absurd h (by simp [Op.isMut])

theorem purgeJobs_no_rem (dry : Bool) (ids : List Str) (s : Store) :
    ∀ op ∈ (purgeJobs dry s ids).2, ∀ j, isRemOf j op = false := by
  intro op hop j
  rcases purgeJobs_shape dry ids s op hop with ⟨p, rfl⟩ | ⟨k, rfl, _⟩
  · rfl
  · rfl

/-- If an element of `A ++ B` satisfies `P` and nothing in `B` does, its
index lies in `A`. -/
theorem idx_lt_of_right_clear {α : Type} (P : α → Bool) (A B : List α) (i : Nat)
    (h : i < (A ++ B).length) (hP : P ((A ++ B).get ⟨i, h⟩) = true)
    (hB : ∀ x ∈ B, P x = false) : i < A.length := by
  by_contra hi
  push_neg at hi
  have hmem : (A ++ B).get ⟨i, h⟩ ∈ B := by
    rw [List.get_eq_getElem, List.getElem_append_right hi]
    exact List.getElem_mem _
  rw [hB _ hmem] at hP
  exact Bool.noConfusion hP

/-- If an element of `A ++ B` satisfies `P` and nothing in `A` does, its
index lies in `B`. -/
theorem idx_ge_of_left_clear {α : Type} (P : α → Bool) (A B : List α) (i : Nat)
    (h : i < (A ++ B).length) (hP : P ((A ++ B).get ⟨i, h⟩) = true)
    (hA : ∀ x ∈ A, P x = false) : A.length ≤ i := by
  by_contra hi
  push_neg at hi
  have hmem : (A ++ B).get ⟨i, h⟩ ∈ A := by
    rw [List.get_eq_getElem, List.getElem_append_left hi]
    exact List.getElem_mem _
  rw [hA _ hmem] at hP
  exact Bool.noConfusion hP

/-- Helper for trace-order claims: if a trace splits as `A ++ B` where `B`
holds no reference-removal of `j` and `A` no data-deletion for `j`, then
every removal index precedes every deletion index. -/
theorem rem_before_del (t A B : List Op) (j : Str) (hT : t = A ++ B)
    (hBclear : ∀ x ∈ B, isRemOf j x = false) (hAclear : ∀ x ∈ A, isDelOf j x = false)
    (i₁ i₂ : Nat) (h₁ : i₁ < t.length) (h₂ : i₂ < t.length)
    (hrem : isRemOf j (t.get ⟨i₁, h₁⟩) = true)
    (hdel : isDelOf j (t.get ⟨i₂, h₂⟩) = true) : i₁ < i₂ := by
  subst hT
  have ha := idx_lt_of_right_clear (isRemOf j) A B i₁ h₁ hrem hBclear
  have hb := idx_ge_of_left_clear (isDelOf j) A B i₂ h₂ hdel hAclear
  omega

/-! ### Concrete stores used by witnesses and counterexamples -/

/-- Two failed containers where the job id `b` of the first occurs as a
substring of the second container's key name. -/
def s_cex : Store :=
  [("a:failed".data, .list ["b".data]), ("b:failed".data, .list ["zzz".data])]

/-- A failed container with a duplicated job id, two job data keys and one
unrelated key. -/
def s_dup : Store :=
  [("q:failed".data, .list ["jobA".data, "jobB".data, "jobA".data]),
   ("bull:q:jobA".data, .other), ("bull:q:jobB".data, .other),
   ("keep:me".data, .other)]

/-- One failed container with a single job and its data key. -/
def s_w : Store :=
  [("immich:failed".data, .list ["42x".data]), ("job:42x:data".data, .other)]

/-- Another single-job store, for the idempotence witness. -/
def s_id : Store :=
  [("w:failed".data, .list ["w1".data]), ("data:w1".data, .other)]

/-- A key whose stored value has an unrecognized representation. -/
def s_unrec : Store := [("str:failed".data, .other)]

/-- An empty (zero-member) container. -/
def s_emp : Store := [("q8:active".data, .list [])]

/-- `--clean-failed` only, dry run. -/
def args_dryF : Args := ⟨true, false, false, true⟩

/-- `--clean-failed` only, live run. -/
def args_wetF : Args := ⟨true, false, false, false⟩

/-! ### The claims -/

/-- C1: for every job id `j` extracted from a container, after a non-dry-run
purge of that container completes, no store key whose name contains `j` as a
substring remains in the store, and the originating container contains no
member equal to `j` (under the operational precondition that no extracted
job id is a substring of an unrelated one; the sequential model has no
concurrent mutation). -/
theorem c1_purge_removes_job (s : Store) (k : Str) (hwf : WF s)
    (_hpre : ∀ j₁ ∈ (get_job_ids s k).1, ∀ j₂ ∈ (get_job_ids s k).1,
      j₁ <:+: j₂ → j₁ = j₂)
    (j : Str) (hj : j ∈ (get_job_ids s k).1) :
    (∀ e ∈ (clean_container s k false).store, ¬ (j <:+: e.1)) ∧
      hasMember (clean_container s k false).store k j = false :=
  ⟨cc_wet_no_substring s k j hj,
    cc_wet_no_member s k hwf (List.ne_nil_of_mem hj) j⟩

theorem c1_witness :
    (∀ e ∈ (clean_container s_w ("immich:failed".data) false).store,
      ¬ (("42x".data : Str) <:+: e.1)) ∧
      hasMember (clean_container s_w ("immich:failed".data) false).store
        ("immich:failed".data) ("42x".data) = false :=
  c1_purge_removes_job s_w ("immich:failed".data) (by decide) (by decide)
    ("42x".data) (by decide)

/-- C2 counterexample: the per-container counts reported by a dry-run sweep
can differ from those of a non-dry-run sweep over the identical store: the
non-dry purge of `a:failed` deletes the container `b:failed` (its key
matches `*b*`), so the second container is reported in the dry run only. -/
theorem c2_counterexample :
    ¬ ((sweep args_dryF s_cex).reps = (sweep args_wetF s_cex).reps) := by decide

/-- C2 (amended): a dry-run sweep issues zero store-mutating calls and
leaves the store unchanged, for every store state and input; and for each
single container purge started from an identical store state, the dry-run
report equals the non-dry-run report.  (Equality of whole-sweep reports
fails in general: see `c2_counterexample`.) -/
theorem c2_dry_run_safe (args : Args) (s : Store) (k : Str)
    (hdry : args.dry_run = true) :
    (sweep args s).store = s ∧
      (∀ op ∈ (sweep args s).trace, op.isMut = false) ∧
      (clean_container s k true).reps = (clean_container s k false).reps :=
  ⟨(sp_dry args hdry QUEUE_PATTERNS s).1, (sp_dry args hdry QUEUE_PATTERNS s).2,
    cc_reps_dry_invariant s k⟩

theorem c2_witness :
    (sweep args_dryF s_cex).store = s_cex ∧
      (∀ op ∈ (sweep args_dryF s_cex).trace, op.isMut = false) ∧
      (clean_container s_cex ("a:failed".data) true).reps =
        (clean_container s_cex ("a:failed".data) false).reps :=
  c2_dry_run_safe args_dryF s_cex ("a:failed".data) rfl

/-- C3: a non-dry-run Failed-state purge of an ordered-sequence container
holding `["jobA","jobB","jobA"]` removes all three entries (the container
key itself disappears), deletes every key matching `*jobA*` or `*jobB*`
while keeping unrelated keys, and reports a count of 3. -/
theorem c3_duplicate_entries :
    (sweep ⟨true, false, false, false⟩ s_dup).store = [("keep:me".data, RVal.other)] ∧
      (sweep ⟨true, false, false, false⟩ s_dup).reps = [("q:failed".data, 3)] ∧
      lookup (sweep ⟨true, false, false, false⟩ s_dup).store ("q:failed".data) = none ∧
      (∀ e ∈ (sweep ⟨true, false, false, false⟩ s_dup).store,
        ¬ (("jobA".data : Str) <:+: e.1) ∧ ¬ (("jobB".data : Str) <:+: e.1)) := by
  decide

/-- C4: in the trace of store calls issued by a non-dry-run purge of one
container, for every extracted job id `j`, every removal of `j`'s container
reference occurs strictly before any deletion of a store key associated
with `j`; the reverse order never occurs. -/
theorem c4_refs_removed_before_deletes (s : Store) (k j : Str)
    (hj : j ∈ (get_job_ids s k).1)
    (i₁ i₂ : Nat) (h₁ : i₁ < (clean_container s k false).trace.length)
    (h₂ : i₂ < (clean_container s k false).trace.length)
    (hrem : isRemOf j ((clean_container s k false).trace.get ⟨i₁, h₁⟩) = true)
    (hdel : isDelOf j ((clean_container s k false).trace.get ⟨i₂, h₂⟩) = true) :
    i₁ < i₂ := by
  have hne : (get_job_ids s k).1 ≠ [] := List.ne_nil_of_mem hj
  refine rem_before_del (clean_container s k false).trace
    ((get_job_ids s k).2 ++ (removePhase s k false (get_job_ids s k).1).2)
    ((purgeJobs false (removePhase s k false (get_job_ids s k).1).1
      (get_job_ids s k).1).2)
    j ?_ ?_ ?_ i₁ i₂ h₁ h₂ hrem hdel
  · rw [cc_pos s k false hne]
  · exact fun x hx => purgeJobs_no_rem false _ _ x hx j
  · intro x hx
    rcases List.mem_append.mp hx with hx | hx
    · exact isDelOf_false_of_not_mut (gji_ops_not_mut s k x hx)
    · exact removePhase_no_del s k false _ x hx j

theorem c4_witness :
    isRemOf ("42x".data)
      ((clean_container s_w ("immich:failed".data) false).trace.get ⟨3, by decide⟩) = true ∧
    isDelOf ("42x".data)
      ((clean_container s_w ("immich:failed".data) false).trace.get ⟨5, by decide⟩) = true ∧
    3 < 5 :=
  ⟨by decide, by decide,
    c4_refs_removed_before_deletes s_w ("immich:failed".data) ("42x".data)
      (by decide) 3 5 (by decide) (by decide) (by decide) (by decide)⟩

/-- C5: a container reported (hence purged) by a non-dry-run sweep yields
zero extracted job ids when the same sweep runs again on the resulting
store; the second run issues no mutating call targeting that container and
reports nothing for it. -/
theorem c5_second_sweep_idle (args : Args) (s : Store) (hwf : WF s)
    (hdry : args.dry_run = false) (k : Str) (n : Nat)
    (hrep : (k, n) ∈ (sweep args s).reps) :
    (get_job_ids (sweep args s).store k).1 = [] ∧
      (∀ op ∈ (sweep args (sweep args s).store).trace, op.mutKey ≠ some k) ∧
      (∀ m : Nat, (k, m) ∉ (sweep args (sweep args s).store).reps) := by
  have hgone : lookup (sweep args s).store k = none :=
    sp_rep_gone args hdry QUEUE_PATTERNS s hwf (k, n) hrep
  have hk : k ∉ keys (sweep args s).store := lookup_eq_none_iff.mp hgone
  refine ⟨?_, ?_, ?_⟩
  · rw [gji_none hgone]
  · intro op hop hkk
    exact hk (sp_mutKey args QUEUE_PATTERNS _ op hop k hkk)
  · intro m hm
    exact hk (sp_reps_key args QUEUE_PATTERNS _ (k, m) hm)

theorem c5_witness :
    (get_job_ids (sweep args_wetF s_id).store ("w:failed".data)).1 = [] ∧
      (∀ op ∈ (sweep args_wetF (sweep args_wetF s_id).store).trace,
        op.mutKey ≠ some ("w:failed".data)) ∧
      (∀ m : Nat, (("w:failed".data, m) : Report) ∉
        (sweep args_wetF (sweep args_wetF s_id).store).reps) :=
  c5_second_sweep_idle args_wetF s_id (by decide) rfl ("w:failed".data) 1 (by decide)

/-- C6: a container whose runtime storage representation is none of the
three recognized kinds yields an empty extraction (no error), and
`clean_container` leaves the store untouched, reads only the type, mutates
nothing and reports nothing. -/
theorem c6_unrecognized_skipped (s : Store) (k : Str) (dry : Bool)
    (h1 : typeOf s k ≠ "list".data) (h2 : typeOf s k ≠ "set".data)
    (h3 : typeOf s k ≠ "zset".data) :
    (get_job_ids s k).1 = [] ∧
      clean_container s k dry = ⟨s, [Op.typ k], []⟩ := by
  have hg : get_job_ids s k = ([], [Op.typ k]) := by
    simp only [get_job_ids]
    rw [if_neg h1, if_neg h2, if_neg h3]
  refine ⟨by rw [hg], ?_⟩
  rw [cc_empty s k dry (by rw [hg]), hg]

theorem c6_witness :
    (get_job_ids s_unrec ("str:failed".data)).1 = [] ∧
      clean_container s_unrec ("str:failed".data) false =
        ⟨s_unrec, [Op.typ ("str:failed".data)], []⟩ :=
  c6_unrecognized_skipped s_unrec ("str:failed".data) false
    (by decide) (by decide) (by decide)

/-- C7: with none of the three state-selection flags set, the program fails
immediately with the fatal usage error, and the run performs zero store
calls, produces zero reports and leaves the store untouched. -/
theorem c7_no_flags_usage_error (s : Store) (d : Bool) :
    main ⟨false, false, false, d⟩ s = (Except.error usageMsg, ⟨s, [], [], []⟩) := rfl

/-- C8: a container from which zero job ids are extracted triggers no
store-mutating call and no report line; the store is left untouched. -/
theorem c8_empty_container_silent (s : Store) (k : Str) (dry : Bool)
    (h : (get_job_ids s k).1 = []) :
    (clean_container s k dry).store = s ∧
      (clean_container s k dry).reps = [] ∧
      ∀ op ∈ (clean_container s k dry).trace, op.isMut = false := by
  rw [cc_empty s k dry h]
  exact ⟨rfl, rfl, gji_ops_not_mut s k⟩

theorem c8_witness :
    (clean_container s_emp ("q8:active".data) false).store = s_emp ∧
      (clean_container s_emp ("q8:active".data) false).reps = [] ∧
      ∀ op ∈ (clean_container s_emp ("q8:active".data) false).trace,
        op.isMut = false :=
  c8_empty_container_silent s_emp ("q8:active".data) false (by decide)

/-- C9: the key scanner yields exactly the keys currently matching the
pattern, issues only read calls, scans in cursor rounds of at most 5000
keys, and a round whose cursor would return to 0 is the last one. -/
theorem c9_scanner (s : Store) (pat : Str) :
    (scan_keys s pat).1 = (keys s).filter (fun k => globMatch pat k) ∧
      (∀ op ∈ (scan_keys s pat).2, op.isMut = false) ∧
      (∀ cur : Nat, (scanBatch s cur).length ≤ 5000) ∧
      (∀ f cur : Nat, ¬ cur + 5000 < s.length →
        scanLoopF (f + 1) s pat cur =
          ((scanBatch s cur).filter (fun k => globMatch pat k), [Op.scan pat])) := by
  refine ⟨scan_keys_eq s pat, ?_, ?_, ?_⟩
  · intro op hop
    rw [scan_keys_ops s pat op hop]
    rfl
  · intro cur
    rw [scanBatch, List.length_map]
    exact List.length_take_le _ _
  · intro f cur hcur
    simp only [scanLoopF, if_neg hcur]

theorem c9_witness :
    scanLoopF 1 s_w ("*:failed".data) 0 =
      ((scanBatch s_w 0).filter (fun k => globMatch ("*:failed".data) k),
        [Op.scan ("*:failed".data)]) :=
  (c9_scanner s_w ("*:failed".data)).2.2.2 0 0 (by decide)

/-- C10: the six state suffixes are pairwise exclusive on every key name (in
particular a key ending in `:waiting` does not also end in `:wait`), the
fixed pattern set is exactly one glob pattern per suffix and each pattern
matches exactly the keys carrying its suffix; consequently one sweep
invokes `clean_container` at most once per key. -/
theorem c10_suffix_classification (args : Args) (s : Store) (hwf : WF s) :
    (∀ k : Str, ∀ s₁ ∈ stateSuffixes, ∀ s₂ ∈ stateSuffixes,
      endsWith k s₁ = true → endsWith k s₂ = true → s₁ = s₂) ∧
      QUEUE_PATTERNS = stateSuffixes.map (fun suf => '*' :: suf) ∧
      (∀ k : Str, ∀ suf ∈ stateSuffixes,
        (globMatch ('*' :: suf) k = true ↔ endsWith k suf = true)) ∧
      (sweep args s).invoked.Nodup :=
  ⟨fun k => suffix_unique k, by decide, fun k => pattern_iff_suffix k,
    sp_invoked_nodup args QUEUE_PATTERNS s hwf (by decide) (by decide)⟩

theorem c10_witness : (sweep ⟨true, true, true, false⟩ s_w).invoked.Nodup :=
  (c10_suffix_classification ⟨true, true, true, false⟩ s_w (by decide)).2.2.2

end RSJ
